import Mathlib

/-!
Verification of nebula-cert-generator: placeholder substitution, default resolution
and orchestration.

A shallow embedding of `main.go`.  Go strings are modelled as lists of characters
(`Str`); the pieces of the Go standard library that the program calls
(`strings.Index`, `strings.ReplaceAll`, `strings.Join`, `strconv.Itoa`) are modelled
next to the program's own functions.  The operating system is a record of
operations over an abstract world state, and `main` returns the trace of the
externally visible actions together with the way the process ended.
-/

namespace NebulaCertGenerator

/-- A Go string.  Go strings are byte sequences holding UTF-8 text; on such text a
search for a substring finds the same occurrences byte by byte and character by
character, so a string is modelled by the list of its characters. -/
abbrev Str := List Char

/-! ## Go standard library -/

/-- Go's `strings.Index(s, substr)`: the position of the first occurrence of `substr`
in `s`; `none` stands for Go's `-1`. -/
def index : Str → Str → Option Nat
  | [], substr => if substr.isEmpty then some 0 else none
  | c :: cs, substr =>
    if substr.isPrefixOf (c :: cs) then some 0
    else (index cs substr).map (· + 1)

/-- The replacement loop of `strings.Replace(s, old, new, -1)` for a non-empty
`old`: write `s[:j]` and `new`, where `j` is the first index of `old`, and go on
after the occurrence; when `old` does not occur any more, write the rest.  Go runs
the loop `Count(s, old)` times, which is the number of rounds after which `Index`
returns `-1`; the first argument bounds the number of rounds. -/
def replaceLoop : Nat → Str → Str → Str → Str
  | 0, s, _, _ => s
  | fuel + 1, s, old, new =>
    match index s old with
    | none => s
    | some j => s.take j ++ new ++ replaceLoop fuel (s.drop (j + old.length)) old new

/-- Go's `strings.ReplaceAll(s, old, new)`: every non-overlapping occurrence of `old`
in `s`, leftmost first, replaced by `new`.  An empty `old` matches before every
character and at the end. -/
def replaceAll (s old new : Str) : Str :=
  if old = new then s
  else if old = [] then new ++ s.flatMap (fun c => c :: new)
  else replaceLoop s.length s old new

/-- Go's `strings.Join(elems, sep)`. -/
def join (elems : List Str) (sep : Str) : Str :=
  sep.intercalate elems

/-- Go's `strconv.Itoa(i)`: the decimal representation of `i`. -/
def itoa (i : Int) : Str :=
  if i < 0 then '-' :: Nat.toDigits 10 i.natAbs else Nat.toDigits 10 i.toNat

/-! ## Placeholder substitution -/

/-- The token `"{{" + key + "}}"`. -/
def placeholder (key : Str) : Str :=
  "\x7b\x7b".toList ++ key ++ "\x7d\x7d".toList

/-- The function `applyPlaceholders(template, values)`.  A Go `range` over a map visits the
entries in an unspecified order; `values` lists the entries of the map in the
order in which the loop visits them. -/
def applyPlaceholders (template : Str) (values : List (Str × Str)) : Str :=
  values.foldl (fun result kv => replaceAll result (placeholder kv.1) kv.2) template

/-- Single-pass simultaneous substitution, as the specification words it: the
template is read once from left to right; where the token of a key of the mapping
starts, the key's value is written and reading goes on after the token, so that a
written value is never read again; any other character is copied.  The first
argument is the number of characters of a token still to be skipped. -/
def substituteSimultaneous (values : List (Str × Str)) : Nat → Str → Str
  | _, [] => []
  | skip + 1, _ :: cs => substituteSimultaneous values skip cs
  | 0, c :: cs =>
    match values.find? (fun kv => (placeholder kv.1).isPrefixOf (c :: cs)) with
    | some kv => kv.2 ++ substituteSimultaneous values ((placeholder kv.1).length - 1) cs
    | none => c :: substituteSimultaneous values 0 cs

/-- The entry of the mapping whose token starts the string, if there is one: the
entry that `substituteSimultaneous` replaces at this position. -/
def tokenAt (values : List (Str × Str)) (s : Str) : Option (Str × Str) :=
  values.find? (fun kv => (placeholder kv.1).isPrefixOf s)

/-- A string without brace characters. -/
abbrev BraceFree (s : Str) : Prop :=
  ∀ ch ∈ s, ch ≠ '{' ∧ ch ≠ '}'

/-- The text `t` is out of reach of the values of the mapping: no value starts a
non-empty end piece of `t`, and no non-empty end piece of `t` starts a value. -/
def Untouched (values : List (Str × Str)) (t : Str) : Prop :=
  ∀ t2, t2 <:+ t → t2 ≠ [] → ∀ kv ∈ values, ¬ kv.2 <+: t2 ∧ ¬ t2 <+: kv.2

/-! ## Configuration (`Config`, `Defaults`, `Global`, `Client`) -/

structure Defaults where
  Duration : Str
  Version : Int
  CaCrt : Str
  CaKey : Str
  OutCrt : Str
  OutKey : Str
  SignCmdPost : Str
  deriving DecidableEq

structure Global where
  CmdPre : Str
  CmdPost : Str
  deriving DecidableEq

structure Client where
  Name : Str
  IP : Str
  Networks : List Str
  Groups : List Str
  Duration : Str
  Version : Int
  CaCrt : Str
  CaKey : Str
  OutCrt : Str
  OutKey : Str
  SignCmdPost : Str
  deriving DecidableEq

structure Config where
  Defaults : Defaults
  Global : Global
  Clients : List Client
  deriving DecidableEq

/-! ## Operating system -/

/-- An error value of the `os` package; `os.IsNotExist` holds of `notExist` only. -/
inductive OSError where
  | notExist
  | other
  deriving DecidableEq

/-- The operations of the operating system that the program uses, over a world
state `W`.  A `none` error is Go's `nil`. -/
structure OS (W : Type) where
  /-- Go's `os.Stat(path)`, error only -/
  stat : W → Str → Option OSError
  /-- Go's `os.Remove(path)` -/
  remove : W → Str → Option OSError × W
  /-- Go's `exec.Command("sh", "-c", cmdStr).Run()`; `true` when the error is `nil` -/
  sh : W → Str → Bool × W
  /-- Go's `exec.Command("nebula-cert", args...).Run()` with the given standard input;
  `true` when the error is `nil` -/
  nebulaCert : W → List Str → Str → Bool × W

/-- The function `fileExists(path)`: the flag and the error. -/
def fileExists {W : Type} (os : OS W) (w : W) (path : Str) : Bool × Option OSError :=
  match os.stat w path with
  | none => (true, none)
  | some .notExist => (false, none)
  | some err => (false, some err)

/-- The function `fileRemove(path)`: the error and the world after the call. -/
def fileRemove {W : Type} (os : OS W) (w : W) (path : Str) : Option OSError × W :=
  match os.remove w path with
  | (none, w1) => (none, w1)
  | (some .notExist, w1) => (none, w1)
  | (some err, w1) => (some err, w1)

/-! ## Process model -/

/-- An externally visible action of the process. -/
inductive Event where
  /-- a shell command run by `runCommand` -/
  | sh (cmdStr : Str)
  /-- an invocation of the signer `nebula-cert` with arguments and standard input -/
  | nebulaCert (args : List Str) (stdin : Str)
  /-- a call of `os.Remove` -/
  | remove (path : Str)
  /-- text written to standard output -/
  | stdout (text : Str)
  deriving DecidableEq

/-- Whether an action runs an external command (a shell command or the signer). -/
def Event.isCommand : Event → Bool
  | .sh _ => true
  | .nebulaCert _ _ => true
  | .remove _ => false
  | .stdout _ => false

/-- The call of `log.Fatal`/`log.Fatalf` that ended the process; the formatted
message is represented by the call site and its arguments. -/
inductive Fatal where
  /-- line 97, "failed to read config" -/
  | readConfig
  /-- line 102, "invalid YAML" -/
  | invalidYAML
  /-- line 106, "no clients defined in config" -/
  | noClients
  /-- line 143, "cmd_pre failed" -/
  | cmdPre
  /-- line 149, "client name and ip are required" -/
  | clientRequired (c : Client)
  /-- line 171, "CA crt file does not exist" -/
  | caCrtMissing (path : Str)
  /-- line 179, "CA key file does not exist" -/
  | caKeyMissing (path : Str)
  /-- line 233, "failed to generate cert for" -/
  | generate (name : Str)
  /-- line 246, "cmd_post failed for" -/
  | signCmdPost (name : Str)
  /-- line 256, the global post-hook failed -/
  | cmdPost
  deriving DecidableEq

/-- How the process ended. -/
inductive Exit where
  /-- a call of `log.Fatal`: diagnostic message, then `os.Exit(1)` -/
  | fatal (f : Fatal)
  /-- a `return` inside the client loop (lines 190 and 202) -/
  | returned
  /-- the end of `main` was reached -/
  | completed
  deriving DecidableEq

/-- The exit status of the process. -/
def Exit.status : Exit → Nat
  | .fatal _ => 1
  | .returned => 0
  | .completed => 0

/-- The ways in which the process ends before the end of `main`. -/
inductive Abort where
  /-- a call of `log.Fatal` -/
  | fatal (f : Fatal)
  /-- a `return` inside the client loop -/
  | returned
  deriving DecidableEq

/-- The way the process ended, for a process that ended early. -/
def Abort.exit : Abort → Exit
  | .fatal f => .fatal f
  | .returned => .returned

/-- Whether execution goes on (in the given world) or the process has ended. -/
inductive Flow (W : Type) where
  | next (w : W)
  | stop (a : Abort)

/-- A piece of execution: the actions it performed and how it went on. -/
structure Run (W : Type) where
  trace : List Event
  flow : Flow W

/-- Sequencing: the second piece runs only when the first did not end the process. -/
def Run.andThen {W : Type} (r : Run W) (f : W → Run W) : Run W :=
  match r.flow with
  | .stop a => ⟨r.trace, .stop a⟩
  | .next w => ⟨r.trace ++ (f w).trace, (f w).flow⟩

/-- What a run of the whole program is: the actions performed and the way it ended. -/
structure Result where
  trace : List Event
  exit : Exit
  deriving DecidableEq

/-- The end of `main`: a run that is still going has reached the closing brace. -/
def Run.finish {W : Type} (r : Run W) : Result :=
  match r.flow with
  | .stop a => ⟨r.trace, a.exit⟩
  | .next _ => ⟨r.trace, .completed⟩

/-- The function `runCommand(cmdStr)` followed by `log.Fatalf` when it fails. -/
def runCommand {W : Type} (os : OS W) (cmdStr : Str) (onError : Fatal) (w : W) : Run W :=
  match os.sh w cmdStr with
  | (true, w1) => ⟨[.sh cmdStr], .next w1⟩
  | (false, _) => ⟨[.sh cmdStr], .stop (.fatal onError)⟩

/-! ## The program -/

/-- Lines 109-131: unset defaults are given their built-in values.  Each of the six
`if` statements reads and assigns one field of `cfg.Defaults`; `SignCmdPost` is left
as loaded. -/
def normalize (d : Defaults) : Defaults where
  Duration := if d.Duration = [] then "0".toList else d.Duration
  Version := if d.Version = 0 then 0 else d.Version
  CaCrt := if d.CaCrt = [] then "ca.crt".toList else d.CaCrt
  CaKey := if d.CaKey = [] then "ca.key".toList else d.CaKey
  OutCrt := if d.OutCrt = [] then "hosts/{{name}}.crt".toList else d.OutCrt
  OutKey := if d.OutKey = [] then "hosts/{{name}}.key".toList else d.OutKey
  SignCmdPost := d.SignCmdPost

/-- The two orders in which a `range` can visit a map of at most two entries. -/
def visit (swap : Bool) (m : List (Str × Str)) : List (Str × Str) :=
  if swap then m.reverse else m

/-- Lines 133-136: the map `placeholders` of `main`'s outermost scope. -/
def outerPlaceholders (d : Defaults) : List (Str × Str) :=
  [("ca_crt".toList, d.CaCrt), ("ca_key".toList, d.CaKey)]

/-- Lines 152-154: the map `placeholders` declared inside the loop body; it shadows
the outer one until the end of the body. -/
def clientPlaceholders (c : Client) : List (Str × Str) :=
  [("name".toList, c.Name)]

/-- The values of the loop body's local variables `duration`, `version`, `caCrt`,
`caKey`, `signCmdPost`, and of `outCrt`, `outKey` before `applyPlaceholders`. -/
structure Resolved where
  duration : Str
  version : Int
  caCrt : Str
  caKey : Str
  outCrt : Str
  outKey : Str
  signCmdPost : Str
  deriving DecidableEq

/-- Lines 156-198 and 236-239: each local variable is the client's field, or the
field of `cfg.Defaults` when the client's field is the zero value. -/
def resolve (d : Defaults) (c : Client) : Resolved where
  duration := if c.Duration = [] then d.Duration else c.Duration
  version := if c.Version = 0 then d.Version else c.Version
  caCrt := if c.CaCrt = [] then d.CaCrt else c.CaCrt
  caKey := if c.CaKey = [] then d.CaKey else c.CaKey
  outCrt := if c.OutCrt = [] then d.OutCrt else c.OutCrt
  outKey := if c.OutKey = [] then d.OutKey else c.OutKey
  signCmdPost := if c.SignCmdPost = [] then d.SignCmdPost else c.SignCmdPost

/-- Line 186: the concrete path of the certificate file. -/
def outCrtPath (d : Defaults) (c : Client) : Str :=
  applyPlaceholders (resolve d c).outCrt (clientPlaceholders c)

/-- Line 198: the concrete path of the key file. -/
def outKeyPath (d : Defaults) (c : Client) : Str :=
  applyPlaceholders (resolve d c).outKey (clientPlaceholders c)

/-- Lines 206-224: the argument list of the signer. -/
def signArgs (d : Defaults) (c : Client) : List Str :=
  let args : List Str := [
    "sign".toList,
    "-name".toList, c.Name,
    "-ip".toList, c.IP,
    "-duration".toList, (resolve d c).duration,
    "-ca-crt".toList, (resolve d c).caCrt,
    "-ca-key".toList, (resolve d c).caKey,
    "-out-crt".toList, outCrtPath d c,
    "-out-key".toList, outKeyPath d c,
    "-version".toList, itoa (resolve d c).version]
  let args := if c.Networks.length > 0
    then args ++ ["-networks".toList, join c.Networks ",".toList] else args
  let args := if c.Groups.length > 0
    then args ++ ["-groups".toList, join c.Groups ",".toList] else args
  args

/-- Lines 187-192 and 199-204: an output file that exists is removed; when the
removal fails, `main` returns. -/
def removeStale {W : Type} (os : OS W) (path : Str) (w : W) : Run W :=
  if (fileExists os w path).1 then
    match fileRemove os w path with
    | (some _, _) => ⟨[.remove path], .stop .returned⟩
    | (none, w1) => ⟨[.remove path], .next w1⟩
  else ⟨[], .next w⟩

/-- Lines 226-234: the progress line and the signer run. -/
def sign {W : Type} (os : OS W) (caPass : Str) (d : Defaults) (c : Client) (w : W) : Run W :=
  let stdin := caPass ++ "\n".toList
  let line := Event.stdout ("→ Generating cert for ".toList ++ c.Name ++ "\n".toList)
  match os.nebulaCert w (signArgs d c) stdin with
  | (true, w1) => ⟨[line, .nebulaCert (signArgs d c) stdin], .next w1⟩
  | (false, _) => ⟨[line, .nebulaCert (signArgs d c) stdin], .stop (.fatal (.generate c.Name))⟩

/-- Lines 236-248: the post-sign hook. -/
def signCmdPost {W : Type} (os : OS W) (d : Defaults) (c : Client) (w : W) : Run W :=
  if (resolve d c).signCmdPost ≠ [] then
    runCommand os (applyPlaceholders (resolve d c).signCmdPost (clientPlaceholders c))
      (.signCmdPost c.Name) w
  else ⟨[], .next w⟩

/-- Lines 148-248: the body of the loop over `cfg.Clients`. -/
def client {W : Type} (os : OS W) (caPass : Str) (d : Defaults) (c : Client) (w : W) : Run W :=
  if c.Name = [] ∨ c.Networks.length ≤ 0 then ⟨[], .stop (.fatal (.clientRequired c))⟩
  else if (fileExists os w (resolve d c).caCrt).1 = false then
    ⟨[], .stop (.fatal (.caCrtMissing (resolve d c).caCrt))⟩
  else if (fileExists os w (resolve d c).caKey).1 = false then
    ⟨[], .stop (.fatal (.caKeyMissing (resolve d c).caKey))⟩
  else
    (removeStale os (outCrtPath d c) w).andThen fun w1 =>
    (removeStale os (outKeyPath d c) w1).andThen fun w2 =>
    (sign os caPass d c w2).andThen fun w3 =>
    signCmdPost os d c w3

/-- Lines 147-249: the loop over `cfg.Clients`, in declared order. -/
def clients {W : Type} (os : OS W) (caPass : Str) (d : Defaults) : List Client → W → Run W
  | [], w => ⟨[], .next w⟩
  | c :: cs, w => (client os caPass d c w).andThen (clients os caPass d cs)

/-- Lines 138-145: the global pre-hook. -/
def cmdPre {W : Type} (os : OS W) (swap : Bool) (cfg : Config) (d : Defaults) (w : W) : Run W :=
  if cfg.Global.CmdPre ≠ [] then
    runCommand os (applyPlaceholders cfg.Global.CmdPre (visit swap (outerPlaceholders d)))
      .cmdPre w
  else ⟨[], .next w⟩

/-- Lines 251-258: the global post-hook.  The `placeholders` it reads is the map of
the outermost scope: the loop body's map went out of scope with the body. -/
def cmdPost {W : Type} (os : OS W) (swap : Bool) (cfg : Config) (d : Defaults) (w : W) : Run W :=
  if cfg.Global.CmdPost ≠ [] then
    runCommand os (applyPlaceholders cfg.Global.CmdPost (visit swap (outerPlaceholders d)))
      .cmdPost w
  else ⟨[], .next w⟩

/-- Line 260: the success line. -/
def success {W : Type} (w : W) : Run W :=
  ⟨[.stdout "✔ All certificates generated successfully\n".toList], .next w⟩

/-- What reading and parsing the configuration file gave (lines 95-103). -/
inductive Loaded where
  | readError
  | yamlError
  | config (cfg : Config)

/-- The part of `main` from the global pre-hook through the first clients of a list:
the run up to the point where the next client is staged. -/
def upTo {W : Type} (os : OS W) (caPass : Str) (swapPre : Bool) (cfg : Config)
    (done : List Client) (w : W) : Run W :=
  (cmdPre os swapPre cfg (normalize cfg.Defaults) w).andThen
    (clients os caPass (normalize cfg.Defaults) done)

/-- The function `main`.  Its parameters are what it reads from its environment: the
operating system and its state, `NEBULA_CA_PASSPHRASE`, the outcome of loading the
configuration file, and the orders in which the two `range` loops over the outer
`placeholders` map visit it. -/
def main {W : Type} (os : OS W) (w : W) (caPass : Str) (loaded : Loaded)
    (swapPre swapPost : Bool) : Result :=
  match loaded with
  | .readError => ⟨[], .fatal .readConfig⟩
  | .yamlError => ⟨[], .fatal .invalidYAML⟩
  | .config cfg =>
    if cfg.Clients.length = 0 then ⟨[], .fatal .noClients⟩
    else
      ((((cmdPre os swapPre cfg (normalize cfg.Defaults) w).andThen
        (clients os caPass (normalize cfg.Defaults) cfg.Clients)).andThen
        (cmdPost os swapPost cfg (normalize cfg.Defaults))).andThen
        success).finish

/-! ## Concrete environments and configurations -/

/-- A file system given by the list of the paths that exist, in which every command
succeeds and leaves the listed files alone. -/
def plainOS : OS (List Str) where
  stat w path := if path ∈ w then none else some .notExist
  remove w path := if path ∈ w then (none, w.erase path) else (some .notExist, w)
  sh w _ := (true, w)
  nebulaCert w _ _ := (true, w)

/-- The same file system when the directory of the output files cannot be written:
`os.Remove` fails with a permission error. -/
def protectedOS : OS (List Str) where
  stat w path := if path ∈ w then none else some .notExist
  remove w _ := (some .other, w)
  sh w _ := (true, w)
  nebulaCert w _ _ := (true, w)

/-- A client with the given name and networks and nothing else set. -/
def bareClient (name : Str) (networks : List Str) : Client where
  Name := name
  IP := []
  Networks := networks
  Groups := []
  Duration := []
  Version := 0
  CaCrt := []
  CaKey := []
  OutCrt := []
  OutKey := []
  SignCmdPost := []

/-- The defaults of a configuration file without a `defaults` section. -/
def noDefaults : Defaults where
  Duration := []
  Version := 0
  CaCrt := []
  CaKey := []
  OutCrt := []
  OutKey := []
  SignCmdPost := []

/-- The client `{name: "alice", networks: ["10.0.0.0/24"]}`. -/
def alice : Client := bareClient "alice".toList ["10.0.0.0/24".toList]

/-- The client `{name: "bob", networks: ["10.0.1.0/24"]}`. -/
def bob : Client := bareClient "bob".toList ["10.0.1.0/24".toList]

/-- The configuration whose only content is the client `alice`. -/
def aliceConfig : Config where
  Defaults := noDefaults
  Global := ⟨[], []⟩
  Clients := [alice]

/-- A configuration with the valid client `alice` followed by a client without a
name. -/
def invalidSecondConfig : Config where
  Defaults := noDefaults
  Global := ⟨[], []⟩
  Clients := [alice, bareClient [] ["10.0.2.0/24".toList]]

/-- The clients `alice` and `bob` with the global post-hook
`echo {{name}} {{ca_crt}}`. -/
def cmdPostConfig : Config where
  Defaults := noDefaults
  Global := ⟨[], "echo {{name}} {{ca_crt}}".toList⟩
  Clients := [alice, bob]

/-- The clients `alice` and `bob`, the second with `duration: "1h"`, with the default
post-sign hook `echo {{name}} signed` and the global hooks
`echo {{ca_crt}} {{ca_key}}` and `echo done {{ca_crt}}`. -/
def hooksConfig : Config where
  Defaults := { noDefaults with SignCmdPost := "echo {{name}} signed".toList }
  Global := ⟨"echo {{ca_crt}} {{ca_key}}".toList, "echo done {{ca_crt}}".toList⟩
  Clients := [alice, { bob with Duration := "1h".toList }]

/-- A world in which the CA material of the built-in paths exists. -/
def caFiles : List Str := ["ca.crt".toList, "ca.key".toList]

/-! ## Facts about the string functions -/

theorem placeholder_ne_nil (key : Str) : placeholder key ≠ [] := by
  simp [placeholder]

theorem placeholder_length (key : Str) : (placeholder key).length = key.length + 4 := by
  simp [placeholder]

theorem index_nil_of_ne_nil {old : Str} (h : old ≠ []) : index [] old = none := by
  cases old with
  | nil => exact absurd rfl h
  | cons a as => simp [index]

theorem index_eq_none_of_absent {old : Str} :
    ∀ s : Str, ¬ old <:+: s → index s old = none
  | [], h => by
    apply index_nil_of_ne_nil
    rintro rfl
    exact h List.nil_infix
  | c :: cs, h => by
    have hp : ¬ old <+: c :: cs := fun hp => h hp.isInfix
    have ht : ¬ old <:+: cs := fun ht => h (List.infix_cons ht)
    have hb : old.isPrefixOf (c :: cs) = false := by
      rw [Bool.eq_false_iff]
      intro hb
      exact hp (List.isPrefixOf_iff_prefix.mp hb)
    simp [index, hb, index_eq_none_of_absent cs ht]

/-- Where `index` finds `old`, `old` is there. -/
theorem drop_of_index_eq_some {old : Str} :
    ∀ (s : Str) (j : Nat), index s old = some j → s.drop j = old ++ s.drop (j + old.length)
  | [], j, h => by
    cases old with
    | nil => simp
    | cons a as => simp [index] at h
  | c :: cs, j, h => by
    unfold index at h
    split at h
    · rename_i hb
      obtain ⟨t, ht⟩ := List.isPrefixOf_iff_prefix.mp hb
      have hj : j = 0 := by simpa using h.symm
      subst hj
      rw [← ht]
      simp
    · rename_i hb
      cases hi : index cs old with
      | none => simp [hi] at h
      | some i =>
        have hj : j = i + 1 := by simpa [hi] using h.symm
        subst hj
        have := drop_of_index_eq_some cs i hi
        have e : i + 1 + old.length = (i + old.length) + 1 := by omega
        rw [e]
        simpa using this

theorem replaceLoop_of_index_none {s old : Str} (new : Str) (h : index s old = none) :
    ∀ fuel, replaceLoop fuel s old new = s
  | 0 => rfl
  | fuel + 1 => by simp [replaceLoop, h]

theorem replaceLoop_of_index_some {s old : Str} (new : Str) {j : Nat}
    (h : index s old = some j) (fuel : Nat) :
    replaceLoop (fuel + 1) s old new
      = s.take j ++ new ++ replaceLoop fuel (s.drop (j + old.length)) old new := by
  simp [replaceLoop, h]

/-- Replacing `old` by itself changes nothing. -/
theorem replaceLoop_self (old : Str) : ∀ (fuel : Nat) (s : Str), replaceLoop fuel s old old = s
  | 0, _ => rfl
  | fuel + 1, s => by
    unfold replaceLoop
    split
    · rfl
    · rename_i j hj
      rw [replaceLoop_self old fuel, List.append_assoc, ← drop_of_index_eq_some s j hj,
        List.take_append_drop]

theorem replaceAll_of_absent {s old : Str} (new : Str) (h : ¬ old <:+: s) :
    replaceAll s old new = s := by
  unfold replaceAll
  split
  · rfl
  · split
    · rename_i h0
      exact absurd (h0 ▸ (List.nil_infix : [] <:+: s)) h
    · exact replaceLoop_of_index_none new (index_eq_none_of_absent s h) _

theorem substituteSimultaneous_skip (values : List (Str × Str)) :
    ∀ (k : Nat) (s : Str),
      substituteSimultaneous values k s = substituteSimultaneous values 0 (s.drop k)
  | 0, s => by simp
  | k + 1, [] => by simp [substituteSimultaneous]
  | k + 1, c :: cs => by
    simp [substituteSimultaneous, substituteSimultaneous_skip values k cs]

/-- The loop of `strings.Replace`, given at least `s.length` rounds, computes the
single-pass substitution of one token. -/
theorem replaceLoop_eq_substituteSimultaneous (key val : Str) :
    ∀ (n : Nat) (s : Str) (fuel : Nat), s.length ≤ n → s.length ≤ fuel →
      replaceLoop fuel s (placeholder key) val = substituteSimultaneous [(key, val)] 0 s := by
  intro n
  induction n with
  | zero =>
    intro s fuel hn _
    have hs : s = [] := List.length_eq_zero.mp (Nat.le_zero.mp hn)
    subst hs
    rw [replaceLoop_of_index_none val (index_nil_of_ne_nil (placeholder_ne_nil key))]
    simp [substituteSimultaneous]
  | succ n ih =>
    intro s fuel hn hf
    cases s with
    | nil =>
      rw [replaceLoop_of_index_none val (index_nil_of_ne_nil (placeholder_ne_nil key))]
      simp [substituteSimultaneous]
    | cons c cs =>
      have hlen := placeholder_length key
      simp only [List.length_cons] at hn hf
      obtain ⟨f, rfl⟩ : ∃ f, fuel = f + 1 := ⟨fuel - 1, by omega⟩
      by_cases hp : (placeholder key).isPrefixOf (c :: cs) = true
      · have hi : index (c :: cs) (placeholder key) = some 0 := by simp [index, hp]
        have hd : (c :: cs).drop (0 + (placeholder key).length)
            = cs.drop ((placeholder key).length - 1) := by
          rw [hlen]; simp
        have hl : (cs.drop ((placeholder key).length - 1)).length ≤ cs.length := by
          simp
        simp only [replaceLoop, hi, hd, substituteSimultaneous, List.find?, hp,
          List.take_zero, List.nil_append]
        rw [substituteSimultaneous_skip, ih _ f (by omega) (by omega)]
      · have hp : (placeholder key).isPrefixOf (c :: cs) = false := Bool.eq_false_iff.mpr hp
        have hscan : substituteSimultaneous [(key, val)] 0 (c :: cs)
            = c :: substituteSimultaneous [(key, val)] 0 cs := by
          simp [substituteSimultaneous, List.find?, hp]
        rw [hscan, ← ih cs f (by omega) (by omega)]
        cases hi : index cs (placeholder key) with
        | none =>
          have hi2 : index (c :: cs) (placeholder key) = none := by simp [index, hp, hi]
          rw [replaceLoop_of_index_none val hi2, replaceLoop_of_index_none val hi]
        | some j =>
          have hi2 : index (c :: cs) (placeholder key) = some (j + 1) := by
            simp [index, hp, hi]
          have hcs : cs ≠ [] := by
            rintro rfl
            rw [index_nil_of_ne_nil (placeholder_ne_nil key)] at hi
            exact Option.noConfusion hi
          have hcl : 0 < cs.length := List.length_pos.mpr hcs
          obtain ⟨g, rfl⟩ : ∃ g, f = g + 1 := ⟨f - 1, by omega⟩
          have hl : (cs.drop (j + (placeholder key).length)).length ≤ cs.length - 1 := by
            simp; omega
          have e : j + 1 + (placeholder key).length = (j + (placeholder key).length) + 1 := by
            omega
          rw [replaceLoop_of_index_some val hi2, replaceLoop_of_index_some val hi, e]
          simp only [List.take_succ_cons, List.drop_succ_cons, List.cons_append]
          rw [ih _ (g + 1) (by omega) (by omega), ih _ g (by omega) (by omega)]

/-- One call of `strings.ReplaceAll` on a token is the single-pass substitution of
the one-entry mapping. -/
theorem replaceAll_placeholder (s key val : Str) :
    replaceAll s (placeholder key) val = substituteSimultaneous [(key, val)] 0 s := by
  unfold replaceAll
  split
  · rename_i h
    rw [← replaceLoop_eq_substituteSimultaneous key val s.length s s.length le_rfl le_rfl,
      ← h, replaceLoop_self]
  · rw [if_neg (placeholder_ne_nil key)]
    exact replaceLoop_eq_substituteSimultaneous key val s.length s s.length le_rfl le_rfl

/-- The number of rounds given to the loop of `strings.Replace` does not matter once
it is at least the length of the string: the loop has stopped by then. -/
theorem replaceLoop_fuel (key val s : Str) (fuel : Nat) (h : s.length ≤ fuel) :
    replaceLoop fuel s (placeholder key) val
      = replaceLoop s.length s (placeholder key) val := by
  rw [replaceLoop_eq_substituteSimultaneous key val fuel s fuel h h,
    replaceLoop_eq_substituteSimultaneous key val s.length s s.length le_rfl le_rfl]

theorem applyPlaceholders_nil (template : Str) : applyPlaceholders template [] = template :=
  rfl

theorem applyPlaceholders_cons (template : Str) (kv : Str × Str) (values : List (Str × Str)) :
    applyPlaceholders template (kv :: values)
      = applyPlaceholders (replaceAll template (placeholder kv.1) kv.2) values :=
  rfl

theorem applyPlaceholders_of_absent :
    ∀ (values : List (Str × Str)) (template : Str),
      (∀ kv ∈ values, ¬ placeholder kv.1 <:+: template) →
      applyPlaceholders template values = template
  | [], _, _ => rfl
  | kv :: values, template, h => by
    rw [applyPlaceholders_cons, replaceAll_of_absent kv.2 (h kv (List.mem_cons_self _ _))]
    exact applyPlaceholders_of_absent values template
      (fun kv2 hkv => h kv2 (List.mem_cons_of_mem _ hkv))

/-! ## Tokens in a string -/

theorem placeholder_eq (key : Str) :
    placeholder key = '{' :: '{' :: (key ++ ['}', '}']) := by
  simp [placeholder]

theorem tokenAt_some {values : List (Str × Str)} {s : Str} {kv : Str × Str}
    (h : tokenAt values s = some kv) : kv ∈ values ∧ placeholder kv.1 <+: s := by
  unfold tokenAt at h
  refine ⟨List.mem_of_find?_eq_some h, ?_⟩
  have := List.find?_some h
  exact List.isPrefixOf_iff_prefix.mp this

theorem tokenAt_none {values : List (Str × Str)} {s : Str} :
    tokenAt values s = none ↔ ∀ kv ∈ values, ¬ placeholder kv.1 <+: s := by
  unfold tokenAt
  rw [List.find?_eq_none]
  constructor
  · intro h kv hkv hp
    exact h kv hkv (List.isPrefixOf_iff_prefix.mpr hp)
  · intro h kv hkv hp
    exact h kv hkv (List.isPrefixOf_iff_prefix.mp hp)

theorem substituteSimultaneous_nil (values : List (Str × Str)) (k : Nat) :
    substituteSimultaneous values k [] = [] := by
  cases k <;> rfl

theorem substituteSimultaneous_of_none {values : List (Str × Str)} {c : Char} {cs : Str}
    (h : tokenAt values (c :: cs) = none) :
    substituteSimultaneous values 0 (c :: cs) = c :: substituteSimultaneous values 0 cs := by
  unfold tokenAt at h
  simp only [substituteSimultaneous, h]

theorem substituteSimultaneous_of_some {values : List (Str × Str)} {s : Str}
    {kv : Str × Str} (h : tokenAt values s = some kv) :
    substituteSimultaneous values 0 s
      = kv.2 ++ substituteSimultaneous values 0 (s.drop (placeholder kv.1).length) := by
  cases s with
  | nil =>
    have hp := (tokenAt_some h).2
    rw [placeholder_eq] at hp
    simp at hp
  | cons c cs =>
    have hlen := placeholder_length kv.1
    unfold tokenAt at h
    simp only [substituteSimultaneous, h]
    rw [substituteSimultaneous_skip, hlen]
    simp

theorem substituteSimultaneous_empty (s : Str) : substituteSimultaneous [] 0 s = s := by
  induction s with
  | nil => rfl
  | cons c cs ih =>
    rw [substituteSimultaneous_of_none (by simp [tokenAt]), ih]

/-- A token starts with an opening brace. -/
theorem placeholder_prefix_head {key : Str} {c : Char} {cs : Str}
    (h : placeholder key <+: c :: cs) : c = '{' := by
  rw [placeholder_eq, List.cons_prefix_cons] at h
  exact h.1.symm

/-- Two tokens of brace-free keys that start at the same place are the same token. -/
theorem close_prefix_key_eq :
    ∀ (k1 k2 s : Str), BraceFree k1 → BraceFree k2 →
      k1 ++ ['}', '}'] <+: s → k2 ++ ['}', '}'] <+: s → k1 = k2
  | [], [], _, _, _, _, _ => rfl
  | [], b :: k2, s, _, h2, p1, p2 => by
    cases s with
    | nil => simp at p1
    | cons c cs =>
      simp only [List.nil_append, List.cons_append, List.cons_prefix_cons] at p1 p2
      exact absurd (p2.1.trans p1.1.symm) (h2 b (List.mem_cons_self _ _)).2
  | a :: k1, [], s, h1, _, p1, p2 => by
    cases s with
    | nil => simp at p1
    | cons c cs =>
      simp only [List.nil_append, List.cons_append, List.cons_prefix_cons] at p1 p2
      exact absurd (p1.1.trans p2.1.symm) (h1 a (List.mem_cons_self _ _)).2
  | a :: k1, b :: k2, s, h1, h2, p1, p2 => by
    cases s with
    | nil => simp at p1
    | cons c cs =>
      simp only [List.cons_append, List.cons_prefix_cons] at p1 p2
      have := close_prefix_key_eq k1 k2 cs
        (fun ch hch => h1 ch (List.mem_cons_of_mem _ hch))
        (fun ch hch => h2 ch (List.mem_cons_of_mem _ hch)) p1.2 p2.2
      rw [p1.1, p2.1, this]

theorem placeholder_prefix_key_eq {k1 k2 s : Str} (h1 : BraceFree k1) (h2 : BraceFree k2)
    (p1 : placeholder k1 <+: s) (p2 : placeholder k2 <+: s) : k1 = k2 := by
  rw [placeholder_eq] at p1 p2
  cases s with
  | nil => simp at p1
  | cons c cs =>
    cases cs with
    | nil => simp at p1
    | cons c2 cs =>
      simp only [List.cons_prefix_cons] at p1 p2
      exact close_prefix_key_eq k1 k2 cs h1 h2 p1.2.2 p2.2.2

theorem ne_open_of_mem_close {key : Str} (h : BraceFree key) :
    ∀ ch ∈ key ++ ['}', '}'], ch ≠ '{' := by
  intro ch hch
  rcases List.mem_append.mp hch with hch | hch
  · exact (h ch hch).1
  · simp at hch
    rw [hch]
    decide

/-- The token of a brace-free key does not start inside the token of another
brace-free key. -/
theorem not_placeholder_prefix_of_suffix {k k2 : Str} (hk : BraceFree k) (hk2 : BraceFree k2)
    (hne : k ≠ k2) {t : Str} (ht : t <:+ placeholder k2) (hnil : t ≠ []) (rest : Str) :
    ¬ placeholder k <+: t ++ rest := by
  intro hp
  rw [placeholder_eq, List.suffix_cons_iff, List.suffix_cons_iff] at ht
  rcases ht with rfl | rfl | ht
  · rw [← placeholder_eq] at hp
    exact hne (placeholder_prefix_key_eq hk hk2 hp (List.prefix_append _ _))
  · rw [placeholder_eq] at hp
    simp only [List.cons_append, List.cons_prefix_cons, true_and] at hp
    cases k2 with
    | nil => simp at hp
    | cons b k2 =>
      simp only [List.cons_append, List.cons_prefix_cons] at hp
      exact (hk2 b (List.mem_cons_self _ _)).1 hp.1.symm
  · cases t with
    | nil => exact hnil rfl
    | cons a t =>
      have ha : a ≠ '{' := ne_open_of_mem_close hk2 a (ht.subset (List.mem_cons_self _ _))
      exact ha (placeholder_prefix_head hp)

/-- A stretch of text in which no token of the mapping starts is copied. -/
theorem substituteSimultaneous_append_of_no_token (values : List (Str × Str)) (rest : Str) :
    ∀ t : Str,
      (∀ t2, t2 <:+ t → t2 ≠ [] → ∀ kv ∈ values, ¬ placeholder kv.1 <+: t2 ++ rest) →
      substituteSimultaneous values 0 (t ++ rest)
        = t ++ substituteSimultaneous values 0 rest
  | [], _ => rfl
  | a :: t, h => by
    have hnone : tokenAt values (a :: (t ++ rest)) = none :=
      tokenAt_none.mpr (fun kv hkv => h (a :: t) (List.suffix_refl _) (by simp) kv hkv)
    rw [List.cons_append, substituteSimultaneous_of_none hnone,
      substituteSimultaneous_append_of_no_token values rest t
        (fun t2 ht2 => h t2 (ht2.trans (List.suffix_cons a t)))]
    rfl

/-- A brace-free stretch of text is copied. -/
theorem substituteSimultaneous_append_of_braceFree (values : List (Str × Str)) (v rest : Str)
    (hv : BraceFree v) :
    substituteSimultaneous values 0 (v ++ rest) = v ++ substituteSimultaneous values 0 rest := by
  apply substituteSimultaneous_append_of_no_token
  intro t2 ht2 hnil kv _ hp
  cases t2 with
  | nil => exact hnil rfl
  | cons a t2 =>
    exact (hv a (ht2.subset (List.mem_cons_self _ _))).1 (placeholder_prefix_head hp)

/-- A text out of reach of the values that starts the output of the substitution
starts its input as well: it was not put together by the substitution. -/
theorem prefix_of_prefix_substituteSimultaneous (values : List (Str × Str)) :
    ∀ (t s : Str), Untouched values t →
      t <+: substituteSimultaneous values 0 s → t <+: s
  | [], _, _, _ => List.nil_prefix
  | a :: t, [], _, h => by simp [substituteSimultaneous] at h
  | a :: t, c :: cs, hu, h => by
    cases hfind : tokenAt values (c :: cs) with
    | some kv =>
      rw [substituteSimultaneous_of_some hfind] at h
      have hcmp := List.prefix_or_prefix_of_prefix h (List.prefix_append kv.2 _)
      have := hu (a :: t) (List.suffix_refl _) (by simp) kv (tokenAt_some hfind).1
      rcases hcmp with hcmp | hcmp
      · exact absurd hcmp this.2
      · exact absurd hcmp this.1
    | none =>
      rw [substituteSimultaneous_of_none hfind, List.cons_prefix_cons] at h
      rw [List.cons_prefix_cons]
      exact ⟨h.1, prefix_of_prefix_substituteSimultaneous values t cs
        (fun t2 ht2 => hu t2 (ht2.trans (List.suffix_cons a t))) h.2⟩

/-- A non-empty brace-free text inside a token is inside the key. -/
theorem infix_key_of_infix_placeholder {v key : Str} (hv : BraceFree v) (hnil : v ≠ [])
    (h : v <:+: placeholder key) : v <:+: key := by
  have hhead : ∀ (c : Char) (l : Str), (c = '{' ∨ c = '}') → ¬ v <+: c :: l := by
    intro c l hc hp
    cases v with
    | nil => exact hnil rfl
    | cons a v =>
      rw [List.cons_prefix_cons] at hp
      rcases hc with hc | hc
      · exact (hv a (List.mem_cons_self _ _)).1 (hp.1.trans hc)
      · exact (hv a (List.mem_cons_self _ _)).2 (hp.1.trans hc)
  have hlast : ∀ (c : Char) (l : Str), (c = '{' ∨ c = '}') → ¬ v <:+ l ++ [c] := by
    intro c l hc hs
    have hmem : c ∈ v := by
      rcases List.eq_nil_or_concat v with h0 | ⟨L, b, hb⟩
      · exact absurd h0 hnil
      · rw [List.concat_eq_append] at hb
        obtain ⟨pre, hpre⟩ := hs
        rw [hb, ← List.append_assoc] at hpre
        have := List.append_inj_right' hpre rfl
        rw [hb]
        simp only [List.cons.injEq, and_true] at this
        simp [this]
    rcases hc with hc | hc
    · exact (hv c hmem).1 hc
    · exact (hv c hmem).2 hc
  rw [placeholder_eq] at h
  rcases List.infix_cons_iff.mp h with h | h
  · exact absurd h (hhead _ _ (Or.inl rfl))
  rcases List.infix_cons_iff.mp h with h | h
  · exact absurd h (hhead _ _ (Or.inl rfl))
  have e : key ++ ['}', '}'] = (key ++ ['}']) ++ ['}'] := by simp
  rw [e] at h
  rcases List.infix_concat_iff.mp h with h | h
  · exact absurd h (hlast _ _ (Or.inr rfl))
  rcases List.infix_concat_iff.mp h with h | h
  · exact absurd h (hlast _ _ (Or.inr rfl))
  exact h

/-- The token of a key is out of reach of brace-free values that do not occur inside
the key. -/
theorem untouched_placeholder (values : List (Str × Str)) (key : Str)
    (hvals : ∀ kv ∈ values, BraceFree kv.2) (hin : ∀ kv ∈ values, ¬ kv.2 <:+: key) :
    Untouched values (placeholder key) := by
  intro t2 ht2 hnil kv hkv
  have hv := hvals kv hkv
  have hvnil : kv.2 ≠ [] := by
    intro h0
    exact hin kv hkv (h0 ▸ List.nil_infix)
  constructor
  · intro hp
    have hinf : kv.2 <:+: placeholder key := by
      obtain ⟨a, ha⟩ := ht2
      obtain ⟨b, hb⟩ := hp
      exact ⟨a, b, by rw [List.append_assoc, hb, ha]⟩
    exact hin kv hkv (infix_key_of_infix_placeholder hv hvnil hinf)
  · intro hp
    rcases List.eq_nil_or_concat t2 with h0 | ⟨L, b, hb⟩
    · exact hnil h0
    · rw [List.concat_eq_append] at hb
      obtain ⟨pre, hpre⟩ := ht2
      have e : placeholder key = ('{' :: '{' :: (key ++ ['}'])) ++ ['}'] := by
        rw [placeholder_eq]
        simp
      rw [hb, ← List.append_assoc, e] at hpre
      have hb2 := List.append_inj_right' hpre rfl
      simp only [List.cons.injEq, and_true] at hb2
      have hmem : b ∈ kv.2 := hp.subset (by rw [hb]; simp)
      exact (hv b hmem).2 hb2

/-- Where a token of a brace-free key starts, the entry found is the first entry with
that key. -/
theorem tokenAt_eq_find_key {values : List (Str × Str)} {key s : Str}
    (hkeys : ∀ kv ∈ values, BraceFree kv.1) (hkey : BraceFree key)
    (hp : placeholder key <+: s) :
    tokenAt values s = values.find? (fun kv => decide (kv.1 = key)) := by
  unfold tokenAt
  induction values with
  | nil => rfl
  | cons kv values ih =>
    have ih := ih (fun kv2 h2 => hkeys kv2 (List.mem_cons_of_mem _ h2))
    by_cases hk : kv.1 = key
    · have hpre : (placeholder kv.1).isPrefixOf s = true := by
        rw [hk]
        exact List.isPrefixOf_iff_prefix.mpr hp
      rw [List.find?_cons, List.find?_cons, hpre]
      simp [hk]
    · have hpre : (placeholder kv.1).isPrefixOf s = false := by
        rw [Bool.eq_false_iff]
        intro h
        exact hk (placeholder_prefix_key_eq (hkeys kv (List.mem_cons_self _ _)) hkey
          (List.isPrefixOf_iff_prefix.mp h) hp)
      simp only [List.find?_cons, hpre, hk, decide_False]
      exact ih

/-- One pass for a key followed by the simultaneous substitution of the other keys is
the simultaneous substitution of all of them, when keys and the value of the pass are
brace-free and the value does not occur inside another key. -/
theorem substituteSimultaneous_cons (kv : Str × Str) (values : List (Str × Str))
    (hk : BraceFree kv.1) (hv : BraceFree kv.2) (hkeys : ∀ e ∈ values, BraceFree e.1)
    (hne : ∀ e ∈ values, kv.1 ≠ e.1) (hin : ∀ e ∈ values, ¬ kv.2 <:+: e.1) :
    ∀ (n : Nat) (s : Str), s.length ≤ n →
      substituteSimultaneous values 0 (substituteSimultaneous [kv] 0 s)
        = substituteSimultaneous (kv :: values) 0 s := by
  intro n
  induction n with
  | zero =>
    intro s hs
    have h0 : s = [] := List.length_eq_zero.mp (Nat.le_zero.mp hs)
    subst h0
    simp [substituteSimultaneous_nil]
  | succ n ih =>
    intro s hs
    cases s with
    | nil => simp [substituteSimultaneous_nil]
    | cons c cs =>
      simp only [List.length_cons] at hs
      by_cases hp : placeholder kv.1 <+: c :: cs
      · have hb := List.isPrefixOf_iff_prefix.mpr hp
        have h1 : tokenAt [kv] (c :: cs) = some kv := by
          simp only [tokenAt, List.find?_cons, hb]
        have h2 : tokenAt (kv :: values) (c :: cs) = some kv := by
          simp only [tokenAt, List.find?_cons, hb]
        have hlen := placeholder_length kv.1
        rw [substituteSimultaneous_of_some h1, substituteSimultaneous_of_some h2,
          substituteSimultaneous_append_of_braceFree values _ _ hv,
          ih _ (by rw [List.length_drop, List.length_cons]; omega)]
      · have hb : (placeholder kv.1).isPrefixOf (c :: cs) = false := by
          rw [Bool.eq_false_iff]
          exact fun h => hp (List.isPrefixOf_iff_prefix.mp h)
        have h1 : tokenAt [kv] (c :: cs) = none := by
          simp only [tokenAt, List.find?_cons, hb, List.find?_nil]
        have h2 : tokenAt (kv :: values) (c :: cs) = tokenAt values (c :: cs) := by
          simp only [tokenAt, List.find?_cons, hb]
        cases hfind : tokenAt values (c :: cs) with
        | none =>
          rw [hfind] at h2
          have h3 : tokenAt values (c :: substituteSimultaneous [kv] 0 cs) = none := by
            rw [tokenAt_none]
            intro e he hpe
            rw [← substituteSimultaneous_of_none h1] at hpe
            have hu : Untouched [kv] (placeholder e.1) :=
              untouched_placeholder [kv] e.1 (by simpa using hv) (by simpa using hin e he)
            exact tokenAt_none.mp hfind e he
              (prefix_of_prefix_substituteSimultaneous [kv] _ _ hu hpe)
          rw [substituteSimultaneous_of_none h1, substituteSimultaneous_of_none h2,
            substituteSimultaneous_of_none h3, ih cs (by omega)]
        | some e =>
          rw [hfind] at h2
          obtain ⟨he, hpe⟩ := tokenAt_some hfind
          obtain ⟨rest, hrest⟩ := hpe
          have hlen := placeholder_length e.1
          have hrl : rest.length ≤ n := by
            have := congrArg List.length hrest
            rw [List.length_append, List.length_cons] at this
            omega
          rw [substituteSimultaneous_of_some h2, ← hrest, List.drop_left,
            substituteSimultaneous_append_of_no_token [kv] rest (placeholder e.1)
              (fun t2 ht2 hnil kv2 hkv2 => by
                rw [List.mem_singleton] at hkv2
                rw [hkv2]
                exact not_placeholder_prefix_of_suffix hk (hkeys e he) (hne e he) ht2 hnil rest)]
          have h4 : tokenAt values (placeholder e.1 ++ substituteSimultaneous [kv] 0 rest)
              = some e := by
            rw [tokenAt_eq_find_key hkeys (hkeys e he) (List.prefix_append _ _),
              ← tokenAt_eq_find_key hkeys (hkeys e he) ⟨rest, hrest⟩]
            exact hfind
          rw [substituteSimultaneous_of_some h4, List.drop_left, ih rest hrl]

/-- Under the conditions of the amended claims the loop of `applyPlaceholders`, which
visits the entries in the order of the list, computes the simultaneous
substitution. -/
theorem applyPlaceholders_eq_substituteSimultaneous :
    ∀ (values : List (Str × Str)) (template : Str),
      (values.map Prod.fst).Nodup →
      (∀ kv ∈ values, BraceFree kv.1) →
      (∀ kv ∈ values, BraceFree kv.2) →
      (∀ kv ∈ values, ∀ kv2 ∈ values, kv.1 ≠ kv2.1 → ¬ kv.2 <:+: kv2.1) →
      applyPlaceholders template values = substituteSimultaneous values 0 template
  | [], template, _, _, _, _ => by
    rw [applyPlaceholders_nil, substituteSimultaneous_empty]
  | kv :: values, template, hnodup, hkeys, hvals, hin => by
    rw [List.map_cons, List.nodup_cons] at hnodup
    have hne : ∀ e ∈ values, kv.1 ≠ e.1 := by
      intro e he h
      exact hnodup.1 (h ▸ List.mem_map_of_mem Prod.fst he)
    rw [applyPlaceholders_cons,
      applyPlaceholders_eq_substituteSimultaneous values _ hnodup.2
        (fun e he => hkeys e (List.mem_cons_of_mem _ he))
        (fun e he => hvals e (List.mem_cons_of_mem _ he))
        (fun e he e2 he2 => hin e (List.mem_cons_of_mem _ he) e2 (List.mem_cons_of_mem _ he2)),
      replaceAll_placeholder]
    exact substituteSimultaneous_cons kv values (hkeys kv (List.mem_cons_self _ _))
      (hvals kv (List.mem_cons_self _ _)) (fun e he => hkeys e (List.mem_cons_of_mem _ he))
      hne
      (fun e he => hin kv (List.mem_cons_self _ _) e (List.mem_cons_of_mem _ he) (hne e he))
      template.length template le_rfl

/-- The entry found at a position does not depend on the order of the entries, for
distinct brace-free keys. -/
theorem tokenAt_perm {values visited : List (Str × Str)} (hperm : visited.Perm values)
    (hnodup : (values.map Prod.fst).Nodup) (hkeys : ∀ kv ∈ values, BraceFree kv.1)
    (s : Str) : tokenAt visited s = tokenAt values s := by
  cases h : tokenAt values s with
  | none =>
    rw [tokenAt_none] at h ⊢
    exact fun kv hkv => h kv (hperm.subset hkv)
  | some e =>
    obtain ⟨he, hpe⟩ := tokenAt_some h
    cases h2 : tokenAt visited s with
    | none =>
      exact absurd hpe (tokenAt_none.mp h2 e (hperm.symm.subset he))
    | some e2 =>
      obtain ⟨he2, hpe2⟩ := tokenAt_some h2
      have hk : e2.1 = e.1 :=
        placeholder_prefix_key_eq (hkeys e2 (hperm.subset he2)) (hkeys e he) hpe2 hpe
      rw [List.inj_on_of_nodup_map hnodup (hperm.subset he2) he hk]

theorem substituteSimultaneous_perm {values visited : List (Str × Str)}
    (hperm : visited.Perm values) (hnodup : (values.map Prod.fst).Nodup)
    (hkeys : ∀ kv ∈ values, BraceFree kv.1) :
    ∀ (s : Str) (k : Nat),
      substituteSimultaneous visited k s = substituteSimultaneous values k s
  | [], k => by rw [substituteSimultaneous_nil, substituteSimultaneous_nil]
  | c :: cs, k + 1 => by
    simp only [substituteSimultaneous]
    exact substituteSimultaneous_perm hperm hnodup hkeys cs k
  | c :: cs, 0 => by
    have ht := tokenAt_perm hperm hnodup hkeys (c :: cs)
    cases h : tokenAt values (c :: cs) with
    | none =>
      rw [h] at ht
      rw [substituteSimultaneous_of_none h, substituteSimultaneous_of_none ht,
        substituteSimultaneous_perm hperm hnodup hkeys cs 0]
    | some e =>
      rw [h] at ht
      unfold tokenAt at h ht
      simp only [substituteSimultaneous, h, ht]
      rw [substituteSimultaneous_perm hperm hnodup hkeys cs _]

/-- The loop of `applyPlaceholders` computes the simultaneous substitution of the
mapping in whatever order it visits the entries. -/
theorem applyPlaceholders_perm (template : Str) (values visited : List (Str × Str))
    (hperm : visited.Perm values) (hnodup : (values.map Prod.fst).Nodup)
    (hkeys : ∀ kv ∈ values, BraceFree kv.1) (hvals : ∀ kv ∈ values, BraceFree kv.2)
    (hin : ∀ kv ∈ values, ∀ kv2 ∈ values, kv.1 ≠ kv2.1 → ¬ kv.2 <:+: kv2.1) :
    applyPlaceholders template visited = substituteSimultaneous values 0 template := by
  rw [applyPlaceholders_eq_substituteSimultaneous visited template
      ((hperm.map Prod.fst).nodup_iff.mpr hnodup)
      (fun kv hkv => hkeys kv (hperm.subset hkv))
      (fun kv hkv => hvals kv (hperm.subset hkv))
      (fun kv hkv kv2 hkv2 => hin kv (hperm.subset hkv) kv2 (hperm.subset hkv2))]
  exact substituteSimultaneous_perm hperm hnodup hkeys template 0

/-- The simultaneous substitution leaves its own output unchanged, when the values are
brace-free and no value occurs inside a key. -/
theorem substituteSimultaneous_idempotent (values : List (Str × Str))
    (hvals : ∀ kv ∈ values, BraceFree kv.2)
    (hin : ∀ kv ∈ values, ∀ kv2 ∈ values, ¬ kv.2 <:+: kv2.1) :
    ∀ (n : Nat) (s : Str), s.length ≤ n →
      substituteSimultaneous values 0 (substituteSimultaneous values 0 s)
        = substituteSimultaneous values 0 s := by
  intro n
  induction n with
  | zero =>
    intro s hs
    have h0 : s = [] := List.length_eq_zero.mp (Nat.le_zero.mp hs)
    subst h0
    simp [substituteSimultaneous_nil]
  | succ n ih =>
    intro s hs
    cases s with
    | nil => simp [substituteSimultaneous_nil]
    | cons c cs =>
      simp only [List.length_cons] at hs
      cases hfind : tokenAt values (c :: cs) with
      | some e =>
        have hlen := placeholder_length e.1
        rw [substituteSimultaneous_of_some hfind,
          substituteSimultaneous_append_of_braceFree values _ _
            (hvals e (tokenAt_some hfind).1),
          ih _ (by rw [List.length_drop, List.length_cons]; omega)]
      | none =>
        have h3 : tokenAt values (c :: substituteSimultaneous values 0 cs) = none := by
          rw [tokenAt_none]
          intro e he hpe
          rw [← substituteSimultaneous_of_none hfind] at hpe
          have hu : Untouched values (placeholder e.1) :=
            untouched_placeholder values e.1 hvals (fun e2 he2 => hin e2 he2 e he)
          exact tokenAt_none.mp hfind e he
            (prefix_of_prefix_substituteSimultaneous values _ _ hu hpe)
        rw [substituteSimultaneous_of_none hfind, substituteSimultaneous_of_none h3,
          ih cs (by omega)]

/-! ## Placeholder substitution: claims C1, C2, C3 -/

/-- Claim C1, counterexample: for the template `{{a}}` and the mapping
`a ↦ {{b}}, b ↦ x`, visiting `a` before `b` gives `x`, because the pass for `b` reads
the value that the pass for `a` wrote, while visiting `b` before `a` gives `{{b}}`,
which is also what the single-pass simultaneous substitution gives.  The result
depends on the visiting order and a replacement value is scanned again. -/
theorem applyPlaceholders_order_dependent :
    applyPlaceholders "{{a}}".toList
        [("a".toList, "{{b}}".toList), ("b".toList, "x".toList)] = "x".toList ∧
    applyPlaceholders "{{a}}".toList
        [("b".toList, "x".toList), ("a".toList, "{{b}}".toList)] = "{{b}}".toList ∧
    substituteSimultaneous [("a".toList, "{{b}}".toList), ("b".toList, "x".toList)] 0
        "{{a}}".toList = "{{b}}".toList ∧
    applyPlaceholders "{{a}}".toList
        [("a".toList, "{{b}}".toList), ("b".toList, "x".toList)]
      ≠ substituteSimultaneous [("a".toList, "{{b}}".toList), ("b".toList, "x".toList)] 0
        "{{a}}".toList := by
  decide

/-- In general the loop is a composition of one-key passes, each of which is the
single-pass substitution of its key in the output of the passes before it. -/
theorem applyPlaceholders_eq_passes (template : Str) (values : List (Str × Str)) :
    applyPlaceholders template values
      = values.foldl (fun result kv => substituteSimultaneous [kv] 0 result) template := by
  induction values generalizing template with
  | nil => rfl
  | cons kv values ih =>
    rw [applyPlaceholders_cons, ih, replaceAll_placeholder]
    rfl

/-- Claim C1, amended: for every template and every mapping whose keys and values
contain no brace character and in which no value occurs inside another key (so that,
with two or more keys, no value is empty), the result of `applyPlaceholders` equals
the single-pass simultaneous substitution of every `{{key}}` token of the template by
the key's value, whatever the order `visited` in which the keys are iterated; in
particular it does not depend on that order and no written value is read again. -/
theorem applyPlaceholders_eq_simultaneous (template : Str)
    (values visited : List (Str × Str)) (hperm : visited.Perm values)
    (hnodup : (values.map Prod.fst).Nodup)
    (hkeys : ∀ kv ∈ values, BraceFree kv.1) (hvals : ∀ kv ∈ values, BraceFree kv.2)
    (hin : ∀ kv ∈ values, ∀ kv2 ∈ values, kv.1 ≠ kv2.1 → ¬ kv.2 <:+: kv2.1) :
    applyPlaceholders template visited = substituteSimultaneous values 0 template :=
  applyPlaceholders_perm template values visited hperm hnodup hkeys hvals hin

theorem applyPlaceholders_eq_simultaneous_witness :
    applyPlaceholders "{{a}}-{{b}}-{{c}}-{{a}}".toList
        [("b".toList, "b c".toList), ("a".toList, "x y".toList)]
      = substituteSimultaneous [("a".toList, "x y".toList), ("b".toList, "b c".toList)] 0
          "{{a}}-{{b}}-{{c}}-{{a}}".toList ∧
    substituteSimultaneous [("a".toList, "x y".toList), ("b".toList, "b c".toList)] 0
        "{{a}}-{{b}}-{{c}}-{{a}}".toList = "x y-b c-{{c}}-x y".toList :=
  ⟨applyPlaceholders_eq_simultaneous "{{a}}-{{b}}-{{c}}-{{a}}".toList
      [("a".toList, "x y".toList), ("b".toList, "b c".toList)]
      [("b".toList, "b c".toList), ("a".toList, "x y".toList)]
      (List.Perm.swap _ _ _) (by decide) (by decide) (by decide) (by decide),
    by decide⟩

/-- Claim C2, counterexample: the value `a` of the mapping `a ↦ a` contains no brace
at all, yet on the template `{{{{a}}}}` one application gives `{{a}}` and a second one
gives `a`: the inner token is replaced and the braces around it form a new token. -/
theorem applyPlaceholders_not_idempotent :
    (∀ ch ∈ "a".toList, ch ≠ '{' ∧ ch ≠ '}') ∧
    applyPlaceholders "{{{{a}}}}".toList [("a".toList, "a".toList)] = "{{a}}".toList ∧
    applyPlaceholders (applyPlaceholders "{{{{a}}}}".toList [("a".toList, "a".toList)])
        [("a".toList, "a".toList)] = "a".toList ∧
    applyPlaceholders (applyPlaceholders "{{{{a}}}}".toList [("a".toList, "a".toList)])
        [("a".toList, "a".toList)]
      ≠ applyPlaceholders "{{{{a}}}}".toList [("a".toList, "a".toList)] := by
  decide

/-- Claim C2, amended: for every template and every mapping whose keys and values
contain no brace character (so that no value contains a placeholder token) and in
which no value occurs inside a key, its own key included (so that no value is empty),
applying `applyPlaceholders` a second time with the same mapping, visited in any
order, gives the result of the first application. -/
theorem applyPlaceholders_idempotent (template : Str) (values again : List (Str × Str))
    (hperm : again.Perm values) (hnodup : (values.map Prod.fst).Nodup)
    (hkeys : ∀ kv ∈ values, BraceFree kv.1) (hvals : ∀ kv ∈ values, BraceFree kv.2)
    (hin : ∀ kv ∈ values, ∀ kv2 ∈ values, ¬ kv.2 <:+: kv2.1) :
    applyPlaceholders (applyPlaceholders template values) again
      = applyPlaceholders template values := by
  have hcross : ∀ kv ∈ values, ∀ kv2 ∈ values, kv.1 ≠ kv2.1 → ¬ kv.2 <:+: kv2.1 :=
    fun kv hkv kv2 hkv2 _ => hin kv hkv kv2 hkv2
  rw [applyPlaceholders_perm template values values (List.Perm.refl _) hnodup hkeys hvals
      hcross,
    applyPlaceholders_perm _ values again hperm hnodup hkeys hvals hcross]
  exact substituteSimultaneous_idempotent values hvals hin template.length template le_rfl

theorem applyPlaceholders_idempotent_witness :
    applyPlaceholders
        (applyPlaceholders "{{{{a}}}} {{b}} {{c}}".toList
          [("a".toList, "x".toList), ("b".toList, "y".toList)])
        [("b".toList, "y".toList), ("a".toList, "x".toList)]
      = applyPlaceholders "{{{{a}}}} {{b}} {{c}}".toList
          [("a".toList, "x".toList), ("b".toList, "y".toList)] ∧
    applyPlaceholders "{{{{a}}}} {{b}} {{c}}".toList
        [("a".toList, "x".toList), ("b".toList, "y".toList)] = "{{x}} y {{c}}".toList :=
  ⟨applyPlaceholders_idempotent "{{{{a}}}} {{b}} {{c}}".toList
      [("a".toList, "x".toList), ("b".toList, "y".toList)]
      [("b".toList, "y".toList), ("a".toList, "x".toList)]
      (List.Perm.swap _ _ _) (by decide) (by decide) (by decide) (by decide),
    by decide⟩

/-- Claim C3: when no token of a key of the mapping occurs in the template, the
template is returned unchanged, whatever the mapping and the visiting order; the
function is total, so there is no failure. -/
theorem applyPlaceholders_unmatched (template : Str) (values : List (Str × Str))
    (h : ∀ kv ∈ values, ¬ placeholder kv.1 <:+: template) :
    applyPlaceholders template values = template :=
  applyPlaceholders_of_absent values template h

theorem applyPlaceholders_unmatched_witness :
    applyPlaceholders "echo {{host}} {name}".toList
        [("name".toList, "alice".toList), ("ca_crt".toList, "ca.crt".toList)]
      = "echo {{host}} {name}".toList :=
  applyPlaceholders_unmatched "echo {{host}} {name}".toList
    [("name".toList, "alice".toList), ("ca_crt".toList, "ca.crt".toList)] (by decide)

/-! ## Default resolution: claim C4 -/

theorem normalize_Version (d : Defaults) : (normalize d).Version = d.Version := by
  simp only [normalize]
  split_ifs with h
  · exact h.symm
  · rfl

/-- Claim C4: the values that the loop body computes from the defaults as normalized
by `main` follow the three-tier cascade, field by field: the client's value when it is
non-empty, else the loaded default when it is non-empty, else the built-in value; the
version is the client's when non-zero, else the loaded default's (so a client version
of 0 gives the default); the post-sign hook is the client's when non-empty, else the
loaded default's. -/
theorem resolve_normalize (D : Defaults) (C : Client) :
    (resolve (normalize D) C).duration
      = (if C.Duration ≠ [] then C.Duration
          else if D.Duration ≠ [] then D.Duration else "0".toList) ∧
    (resolve (normalize D) C).caCrt
      = (if C.CaCrt ≠ [] then C.CaCrt
          else if D.CaCrt ≠ [] then D.CaCrt else "ca.crt".toList) ∧
    (resolve (normalize D) C).caKey
      = (if C.CaKey ≠ [] then C.CaKey
          else if D.CaKey ≠ [] then D.CaKey else "ca.key".toList) ∧
    (resolve (normalize D) C).outCrt
      = (if C.OutCrt ≠ [] then C.OutCrt
          else if D.OutCrt ≠ [] then D.OutCrt else "hosts/{{name}}.crt".toList) ∧
    (resolve (normalize D) C).outKey
      = (if C.OutKey ≠ [] then C.OutKey
          else if D.OutKey ≠ [] then D.OutKey else "hosts/{{name}}.key".toList) ∧
    (resolve (normalize D) C).version
      = (if C.Version ≠ 0 then C.Version else if D.Version ≠ 0 then D.Version else 0) ∧
    (C.Version = 0 → (resolve (normalize D) C).version = D.Version) ∧
    (resolve (normalize D) C).signCmdPost
      = (if C.SignCmdPost ≠ [] then C.SignCmdPost else D.SignCmdPost) := by
  have hv := normalize_Version D
  refine ⟨?_, ?_, ?_, ?_, ?_, ?_, ?_, ?_⟩
  · simp only [resolve, normalize]; split_ifs <;> simp_all
  · simp only [resolve, normalize]; split_ifs <;> simp_all
  · simp only [resolve, normalize]; split_ifs <;> simp_all
  · simp only [resolve, normalize]; split_ifs <;> simp_all
  · simp only [resolve, normalize]; split_ifs <;> simp_all
  · simp only [resolve, hv]; split_ifs <;> simp_all
  · intro h; simp only [resolve, hv, h, if_true]
  · simp only [resolve, normalize]; split_ifs <;> simp_all

/-! ## Facts about runs -/

section Runs

variable {W : Type}

theorem Run.andThen_stop {r : Run W} {a : Abort} (h : r.flow = .stop a) (f : W → Run W) :
    r.andThen f = ⟨r.trace, .stop a⟩ := by
  simp [Run.andThen, h]

theorem Run.andThen_next {r : Run W} {w : W} (h : r.flow = .next w) (f : W → Run W) :
    r.andThen f = ⟨r.trace ++ (f w).trace, (f w).flow⟩ := by
  simp [Run.andThen, h]

theorem Run.andThen_assoc (r : Run W) (f g : W → Run W) :
    (r.andThen f).andThen g = r.andThen (fun w => (f w).andThen g) := by
  cases hr : r.flow with
  | stop a => simp [Run.andThen, hr]
  | next w =>
    simp only [Run.andThen, hr]
    cases hf : (f w).flow <;> simp

theorem Run.nil_andThen (w : W) (f : W → Run W) :
    (⟨[], .next w⟩ : Run W).andThen f = f w := by
  simp [Run.andThen]

theorem Run.finish_trace (r : Run W) : r.finish.trace = r.trace := by
  unfold Run.finish
  split <;> rfl

theorem Run.mem_trace_andThen {r : Run W} {f : W → Run W} {ev : Event}
    (h : ev ∈ (r.andThen f).trace) :
    ev ∈ r.trace ∨ ∃ w, r.flow = .next w ∧ ev ∈ (f w).trace := by
  cases hr : r.flow with
  | stop a =>
    rw [Run.andThen_stop hr] at h
    exact Or.inl h
  | next w =>
    rw [Run.andThen_next hr] at h
    rcases List.mem_append.mp h with h | h
    · exact Or.inl h
    · exact Or.inr ⟨w, rfl, h⟩

theorem Run.andThen_flow_next {r : Run W} {f : W → Run W} {w2 : W}
    (h : (r.andThen f).flow = .next w2) :
    ∃ w1, r.flow = .next w1 ∧ (f w1).flow = .next w2 ∧
      (r.andThen f).trace = r.trace ++ (f w1).trace := by
  cases hr : r.flow with
  | stop a =>
    rw [Run.andThen_stop hr] at h
    exact Flow.noConfusion h
  | next w =>
    rw [Run.andThen_next hr] at h ⊢
    exact ⟨w, rfl, h, rfl⟩

theorem Run.finish_completed {r : Run W} (h : r.finish.exit = .completed) :
    ∃ w, r.flow = .next w := by
  unfold Run.finish at h
  split at h
  · rename_i a _
    cases a <;> simp [Abort.exit] at h
  · rename_i w hw
    exact ⟨w, hw⟩

theorem Abort.exit_ne_completed (a : Abort) : a.exit ≠ .completed := by
  cases a <;> simp [Abort.exit]

theorem clients_append (os : OS W) (caPass : Str) (d : Defaults) :
    ∀ (xs ys : List Client) (w : W),
      clients os caPass d (xs ++ ys) w
        = (clients os caPass d xs w).andThen (clients os caPass d ys)
  | [], ys, w => by simp [clients, Run.nil_andThen]
  | x :: xs, ys, w => by
    simp only [List.cons_append, clients, Run.andThen_assoc]
    congr 1
    funext w1
    exact clients_append os caPass d xs ys w1

theorem runCommand_trace (os : OS W) (cmdStr : Str) (onError : Fatal) (w : W) :
    (runCommand os cmdStr onError w).trace = [.sh cmdStr] := by
  unfold runCommand
  split <;> rfl

theorem cmdPre_trace (os : OS W) (swap : Bool) (cfg : Config) (d : Defaults) (w : W) :
    (cmdPre os swap cfg d w).trace
      = if cfg.Global.CmdPre ≠ [] then
          [.sh (applyPlaceholders cfg.Global.CmdPre (visit swap (outerPlaceholders d)))]
        else [] := by
  unfold cmdPre
  split_ifs
  · exact runCommand_trace _ _ _ _
  · rfl

theorem cmdPost_trace (os : OS W) (swap : Bool) (cfg : Config) (d : Defaults) (w : W) :
    (cmdPost os swap cfg d w).trace
      = if cfg.Global.CmdPost ≠ [] then
          [.sh (applyPlaceholders cfg.Global.CmdPost (visit swap (outerPlaceholders d)))]
        else [] := by
  unfold cmdPost
  split_ifs
  · exact runCommand_trace _ _ _ _
  · rfl

theorem signCmdPost_trace (os : OS W) (d : Defaults) (c : Client) (w : W) :
    (signCmdPost os d c w).trace
      = if (resolve d c).signCmdPost ≠ [] then
          [.sh (applyPlaceholders (resolve d c).signCmdPost (clientPlaceholders c))]
        else [] := by
  unfold signCmdPost
  split_ifs
  · exact runCommand_trace _ _ _ _
  · rfl

theorem sign_trace (os : OS W) (caPass : Str) (d : Defaults) (c : Client) (w : W) :
    (sign os caPass d c w).trace
      = [.stdout ("→ Generating cert for ".toList ++ c.Name ++ "\n".toList),
          .nebulaCert (signArgs d c) (caPass ++ "\n".toList)] := by
  unfold sign
  dsimp only
  split <;> rfl

theorem removeStale_trace (os : OS W) (path : Str) (w : W) :
    (removeStale os path w).trace = [] ∨ (removeStale os path w).trace = [.remove path] := by
  unfold removeStale
  split_ifs
  · split
    · exact Or.inr rfl
    · exact Or.inr rfl
  · exact Or.inl rfl

theorem main_eq_upTo (os : OS W) (w : W) (caPass : Str) (cfg : Config)
    (swapPre swapPost : Bool) (done rest : List Client)
    (hcl : cfg.Clients = done ++ rest) (hne : cfg.Clients ≠ []) :
    main os w caPass (.config cfg) swapPre swapPost
      = ((((upTo os caPass swapPre cfg done w).andThen
          (clients os caPass (normalize cfg.Defaults) rest)).andThen
          (cmdPost os swapPost cfg (normalize cfg.Defaults))).andThen success).finish := by
  have hlen : ¬ cfg.Clients.length = 0 := fun h => hne (List.length_eq_zero.mp h)
  have e : (cmdPre os swapPre cfg (normalize cfg.Defaults) w).andThen
        (clients os caPass (normalize cfg.Defaults) (done ++ rest))
      = ((cmdPre os swapPre cfg (normalize cfg.Defaults) w).andThen
          (clients os caPass (normalize cfg.Defaults) done)).andThen
          (clients os caPass (normalize cfg.Defaults) rest) := by
    rw [Run.andThen_assoc]
    congr 1
    funext w1
    exact clients_append os caPass (normalize cfg.Defaults) done rest w1
  simp only [main, if_neg hlen, upTo]
  rw [hcl, e]

theorem main_of_upTo_stop (os : OS W) (w : W) (caPass : Str) (cfg : Config)
    (swapPre swapPost : Bool) (done rest : List Client)
    (hcl : cfg.Clients = done ++ rest) (hne : cfg.Clients ≠ []) (a : Abort)
    (h : (upTo os caPass swapPre cfg done w).flow = .stop a) :
    main os w caPass (.config cfg) swapPre swapPost
      = ⟨(upTo os caPass swapPre cfg done w).trace, a.exit⟩ := by
  rw [main_eq_upTo os w caPass cfg swapPre swapPost done rest hcl hne]
  simp [Run.andThen, Run.finish, h]

theorem main_of_client_stop (os : OS W) (w : W) (caPass : Str) (cfg : Config)
    (swapPre swapPost : Bool) (done : List Client) (c : Client) (rest : List Client)
    (hcl : cfg.Clients = done ++ c :: rest) (w1 : W)
    (h : (upTo os caPass swapPre cfg done w).flow = .next w1) (a : Abort)
    (hc : client os caPass (normalize cfg.Defaults) c w1 = ⟨[], .stop a⟩) :
    main os w caPass (.config cfg) swapPre swapPost
      = ⟨(upTo os caPass swapPre cfg done w).trace, a.exit⟩ := by
  have hne : cfg.Clients ≠ [] := by
    rw [hcl]
    simp
  rw [main_eq_upTo os w caPass cfg swapPre swapPost done (c :: rest) hcl hne]
  simp [Run.andThen, Run.finish, h, clients, hc]

theorem client_of_invalid (os : OS W) (caPass : Str) (d : Defaults) (c : Client) (w : W)
    (h : c.Name = [] ∨ c.Networks = []) :
    client os caPass d c w = ⟨[], .stop (.fatal (.clientRequired c))⟩ := by
  have h2 : c.Name = [] ∨ c.Networks.length ≤ 0 := by
    rcases h with h | h
    · exact Or.inl h
    · exact Or.inr (by simp [h])
  simp only [client, if_pos h2]

theorem fileExists_of_notExist (os : OS W) (w : W) (path : Str)
    (h : os.stat w path = some .notExist) : (fileExists os w path).1 = false := by
  simp [fileExists, h]

theorem client_of_ca_missing (os : OS W) (caPass : Str) (d : Defaults) (c : Client) (w : W)
    (h : os.stat w (resolve d c).caCrt = some .notExist
      ∨ os.stat w (resolve d c).caKey = some .notExist) :
    ∃ f, client os caPass d c w = ⟨[], .stop (.fatal f)⟩ := by
  unfold client
  split_ifs with h1 h2 h3
  · exact ⟨_, rfl⟩
  · exact ⟨_, rfl⟩
  · exact ⟨_, rfl⟩
  · rcases h with h | h
    · exact absurd (fileExists_of_notExist os w _ h) h2
    · exact absurd (fileExists_of_notExist os w _ h) h3

theorem removeStale_commands (os : OS W) (path : Str) (w : W) :
    (removeStale os path w).trace.filter Event.isCommand = [] := by
  rcases removeStale_trace os path w with h | h <;> rw [h] <;> rfl

theorem client_nebulaCert (os : OS W) (caPass : Str) (d : Defaults) (c : Client) (w : W)
    (args : List Str) (stdin : Str)
    (h : Event.nebulaCert args stdin ∈ (client os caPass d c w).trace) :
    c.Name ≠ [] ∧ c.Networks ≠ [] ∧ args = signArgs d c ∧ stdin = caPass ++ "\n".toList := by
  unfold client at h
  split_ifs at h with h1 h2 h3
  · simp at h
  · simp at h
  · simp at h
  · have hvalid : c.Name ≠ [] ∧ c.Networks ≠ [] := by
      constructor
      · exact fun hn => h1 (Or.inl hn)
      · exact fun hn => h1 (Or.inr (by simp [hn]))
    refine ⟨hvalid.1, hvalid.2, ?_⟩
    rcases Run.mem_trace_andThen h with h | ⟨w1, _, h⟩
    · rcases removeStale_trace os (outCrtPath d c) w with e | e <;> simp [e] at h
    rcases Run.mem_trace_andThen h with h | ⟨w2, _, h⟩
    · rcases removeStale_trace os (outKeyPath d c) w1 with e | e <;> simp [e] at h
    rcases Run.mem_trace_andThen h with h | ⟨w3, _, h⟩
    · rw [sign_trace] at h
      simpa using h
    · rw [signCmdPost_trace] at h
      split_ifs at h <;> simp at h

theorem clients_nebulaCert (os : OS W) (caPass : Str) (d : Defaults) (args : List Str)
    (stdin : Str) :
    ∀ (cs : List Client) (w : W),
      Event.nebulaCert args stdin ∈ (clients os caPass d cs w).trace →
      ∃ c ∈ cs, c.Name ≠ [] ∧ c.Networks ≠ [] ∧ args = signArgs d c
        ∧ stdin = caPass ++ "\n".toList
  | [], w, h => by simp [clients] at h
  | c :: cs, w, h => by
    unfold clients at h
    rcases Run.mem_trace_andThen h with h | ⟨w1, _, h⟩
    · exact ⟨c, List.mem_cons_self _ _, client_nebulaCert os caPass d c w args stdin h⟩
    · obtain ⟨c2, hc2, hrest⟩ := clients_nebulaCert os caPass d args stdin cs w1 h
      exact ⟨c2, List.mem_cons_of_mem _ hc2, hrest⟩

theorem signArgs_of_networks (d : Defaults) (c : Client) (h : c.Networks ≠ []) :
    signArgs d c
      = ["sign".toList,
          "-name".toList, c.Name,
          "-ip".toList, c.IP,
          "-duration".toList, (resolve d c).duration,
          "-ca-crt".toList, (resolve d c).caCrt,
          "-ca-key".toList, (resolve d c).caKey,
          "-out-crt".toList, applyPlaceholders (resolve d c).outCrt [("name".toList, c.Name)],
          "-out-key".toList, applyPlaceholders (resolve d c).outKey [("name".toList, c.Name)],
          "-version".toList, itoa (resolve d c).version,
          "-networks".toList, join c.Networks ",".toList]
        ++ (if c.Groups ≠ [] then ["-groups".toList, join c.Groups ",".toList] else []) := by
  have hn : c.Networks.length > 0 := List.length_pos.mpr h
  unfold signArgs
  simp only [if_pos hn, outCrtPath, outKeyPath, clientPlaceholders]
  by_cases hg : c.Groups = []
  · have hg2 : ¬ c.Groups.length > 0 := by simp [hg]
    rw [if_neg hg2, if_neg (not_not.mpr hg)]
    rfl
  · have hg2 : c.Groups.length > 0 := List.length_pos.mpr hg
    rw [if_pos hg2, if_pos hg]
    rfl

theorem client_commands (os : OS W) (caPass : Str) (d : Defaults) (c : Client) (w w2 : W)
    (h : (client os caPass d c w).flow = .next w2) :
    (client os caPass d c w).trace.filter Event.isCommand
      = Event.nebulaCert (signArgs d c) (caPass ++ "\n".toList)
        :: (if (resolve d c).signCmdPost ≠ [] then
            [Event.sh (applyPlaceholders (resolve d c).signCmdPost (clientPlaceholders c))]
          else []) := by
  unfold client at h ⊢
  by_cases h1 : c.Name = [] ∨ c.Networks.length ≤ 0
  · rw [if_pos h1] at h
    exact Flow.noConfusion h
  rw [if_neg h1] at h ⊢
  by_cases h2 : (fileExists os w (resolve d c).caCrt).1 = false
  · rw [if_pos h2] at h
    exact Flow.noConfusion h
  rw [if_neg h2] at h ⊢
  by_cases h3 : (fileExists os w (resolve d c).caKey).1 = false
  · rw [if_pos h3] at h
    exact Flow.noConfusion h
  rw [if_neg h3] at h ⊢
  obtain ⟨w3, _, h, ht1⟩ := Run.andThen_flow_next h
  obtain ⟨w4, _, h, ht2⟩ := Run.andThen_flow_next h
  obtain ⟨w5, _, h, ht3⟩ := Run.andThen_flow_next h
  rw [ht1, ht2, ht3]
  simp only [List.filter_append, removeStale_commands, sign_trace, signCmdPost_trace,
    List.nil_append]
  split_ifs <;> rfl

theorem clients_commands (os : OS W) (caPass : Str) (d : Defaults) :
    ∀ (cs : List Client) (w w2 : W), (clients os caPass d cs w).flow = .next w2 →
      (clients os caPass d cs w).trace.filter Event.isCommand
        = cs.flatMap (fun c =>
            Event.nebulaCert (signArgs d c) (caPass ++ "\n".toList)
              :: (if (resolve d c).signCmdPost ≠ [] then
                  [Event.sh (applyPlaceholders (resolve d c).signCmdPost
                    (clientPlaceholders c))]
                else []))
  | [], _, _, _ => rfl
  | c :: cs, w, w2, h => by
    unfold clients at h ⊢
    obtain ⟨w1, hc, h, ht⟩ := Run.andThen_flow_next h
    rw [ht, List.filter_append, client_commands os caPass d c w w1 hc,
      clients_commands os caPass d cs w1 w2 h]
    simp [List.flatMap]

theorem Run.andThen_flow_of_next {r : Run W} {w1 : W} (h : r.flow = .next w1)
    (f : W → Run W) : (r.andThen f).flow = (f w1).flow := by
  rw [Run.andThen_next h]

theorem runCommand_next (os : OS W) (cmdStr : Str) (onError : Fatal) (w : W)
    (Inv : W → Prop) (h : (os.sh w cmdStr).1 = true ∧ Inv (os.sh w cmdStr).2) :
    ∃ w2, (runCommand os cmdStr onError w).flow = .next w2 ∧ Inv w2 := by
  unfold runCommand
  cases hr : os.sh w cmdStr with
  | mk ok w2 =>
    rw [hr] at h
    cases ok with
    | false => exact absurd h.1 (by simp)
    | true => exact ⟨w2, rfl, h.2⟩

theorem cmdPre_next (os : OS W) (swap : Bool) (cfg : Config) (d : Defaults) (w : W)
    (Inv : W → Prop) (hw : Inv w)
    (h : cfg.Global.CmdPre ≠ [] →
      (os.sh w (applyPlaceholders cfg.Global.CmdPre (visit swap (outerPlaceholders d)))).1
          = true
        ∧ Inv (os.sh w
            (applyPlaceholders cfg.Global.CmdPre (visit swap (outerPlaceholders d)))).2) :
    ∃ w2, (cmdPre os swap cfg d w).flow = .next w2 ∧ Inv w2 := by
  unfold cmdPre
  split_ifs with hset
  · exact runCommand_next os _ _ w Inv (h hset)
  · exact ⟨w, rfl, hw⟩

theorem cmdPost_next (os : OS W) (swap : Bool) (cfg : Config) (d : Defaults) (w : W)
    (Inv : W → Prop) (hw : Inv w)
    (h : cfg.Global.CmdPost ≠ [] →
      (os.sh w (applyPlaceholders cfg.Global.CmdPost (visit swap (outerPlaceholders d)))).1
          = true
        ∧ Inv (os.sh w
            (applyPlaceholders cfg.Global.CmdPost (visit swap (outerPlaceholders d)))).2) :
    ∃ w2, (cmdPost os swap cfg d w).flow = .next w2 ∧ Inv w2 := by
  unfold cmdPost
  split_ifs with hset
  · exact runCommand_next os _ _ w Inv (h hset)
  · exact ⟨w, rfl, hw⟩

theorem signCmdPost_next (os : OS W) (d : Defaults) (c : Client) (w : W)
    (Inv : W → Prop) (hw : Inv w)
    (h : (resolve d c).signCmdPost ≠ [] →
      (os.sh w (applyPlaceholders (resolve d c).signCmdPost (clientPlaceholders c))).1 = true
        ∧ Inv (os.sh w
            (applyPlaceholders (resolve d c).signCmdPost (clientPlaceholders c))).2) :
    ∃ w2, (signCmdPost os d c w).flow = .next w2 ∧ Inv w2 := by
  unfold signCmdPost
  split_ifs with hset
  · exact runCommand_next os _ _ w Inv (h hset)
  · exact ⟨w, rfl, hw⟩

theorem sign_next (os : OS W) (caPass : Str) (d : Defaults) (c : Client) (w : W)
    (Inv : W → Prop)
    (h : (os.nebulaCert w (signArgs d c) (caPass ++ "\n".toList)).1 = true
      ∧ Inv (os.nebulaCert w (signArgs d c) (caPass ++ "\n".toList)).2) :
    ∃ w2, (sign os caPass d c w).flow = .next w2 ∧ Inv w2 := by
  unfold sign
  dsimp only
  cases hr : os.nebulaCert w (signArgs d c) (caPass ++ "\n".toList) with
  | mk ok w2 =>
    rw [hr] at h
    cases ok with
    | false => exact absurd h.1 (by simp)
    | true => exact ⟨w2, rfl, h.2⟩

theorem fileExists_eq_true (os : OS W) (w : W) (path : Str) :
    (fileExists os w path).1 = true ↔ os.stat w path = none := by
  unfold fileExists
  cases h : os.stat w path with
  | none => simp
  | some err => cases err <;> simp

theorem removeStale_next (os : OS W) (path : Str) (w : W) (Inv : W → Prop) (hw : Inv w)
    (hrm : os.stat w path = none →
      ((os.remove w path).1 = none ∨ (os.remove w path).1 = some .notExist)
        ∧ Inv (os.remove w path).2) :
    ∃ w2, (removeStale os path w).flow = .next w2 ∧ Inv w2 := by
  unfold removeStale
  by_cases he : (fileExists os w path).1 = true
  · have h := hrm ((fileExists_eq_true os w path).mp he)
    rw [if_pos he]
    unfold fileRemove
    cases hr : os.remove w path with
    | mk err w2 =>
      rw [hr] at h
      rcases h with ⟨h1 | h1, h2⟩
      · simp only at h1
        subst h1
        exact ⟨w2, rfl, h2⟩
      · simp only at h1
        subst h1
        exact ⟨w2, rfl, h2⟩
  · rw [if_neg he]
    exact ⟨w, rfl, hw⟩

theorem client_next (os : OS W) (caPass : Str) (d : Defaults) (c : Client) (w : W)
    (Inv : W → Prop) (hw : Inv w) (hvalid : c.Name ≠ [] ∧ c.Networks ≠ [])
    (hca : ∀ w1, Inv w1 →
      os.stat w1 (resolve d c).caCrt = none ∧ os.stat w1 (resolve d c).caKey = none)
    (hrm : ∀ w1, Inv w1 → ∀ path ∈ [outCrtPath d c, outKeyPath d c],
      os.stat w1 path = none →
      ((os.remove w1 path).1 = none ∨ (os.remove w1 path).1 = some .notExist)
        ∧ Inv (os.remove w1 path).2)
    (hsign : ∀ w1, Inv w1 →
      (os.nebulaCert w1 (signArgs d c) (caPass ++ "\n".toList)).1 = true
        ∧ Inv (os.nebulaCert w1 (signArgs d c) (caPass ++ "\n".toList)).2)
    (hhook : (resolve d c).signCmdPost ≠ [] → ∀ w1, Inv w1 →
      (os.sh w1 (applyPlaceholders (resolve d c).signCmdPost (clientPlaceholders c))).1 = true
        ∧ Inv (os.sh w1
            (applyPlaceholders (resolve d c).signCmdPost (clientPlaceholders c))).2) :
    ∃ w2, (client os caPass d c w).flow = .next w2 ∧ Inv w2 := by
  have h1 : ¬ (c.Name = [] ∨ c.Networks.length ≤ 0) := by
    rintro (h | h)
    · exact hvalid.1 h
    · exact hvalid.2 (List.length_eq_zero.mp (Nat.le_zero.mp h))
  have h2 : ¬ (fileExists os w (resolve d c).caCrt).1 = false := by
    rw [(fileExists_eq_true os w _).mpr (hca w hw).1]
    simp
  have h3 : ¬ (fileExists os w (resolve d c).caKey).1 = false := by
    rw [(fileExists_eq_true os w _).mpr (hca w hw).2]
    simp
  unfold client
  rw [if_neg h1, if_neg h2, if_neg h3]
  obtain ⟨w1, hf1, hi1⟩ := removeStale_next os (outCrtPath d c) w Inv hw
    (hrm w hw _ (by simp))
  obtain ⟨w2, hf2, hi2⟩ := removeStale_next os (outKeyPath d c) w1 Inv hi1
    (hrm w1 hi1 _ (by simp))
  obtain ⟨w3, hf3, hi3⟩ := sign_next os caPass d c w2 Inv (hsign w2 hi2)
  obtain ⟨w4, hf4, hi4⟩ := signCmdPost_next os d c w3 Inv hi3 (fun hset => hhook hset w3 hi3)
  refine ⟨w4, ?_, hi4⟩
  rw [Run.andThen_flow_of_next hf1, Run.andThen_flow_of_next hf2,
    Run.andThen_flow_of_next hf3, hf4]

theorem clients_next (os : OS W) (caPass : Str) (d : Defaults) (Inv : W → Prop) :
    ∀ (cs : List Client) (w : W), Inv w →
      (∀ c ∈ cs, c.Name ≠ [] ∧ c.Networks ≠ []) →
      (∀ w1, Inv w1 → ∀ c ∈ cs,
        os.stat w1 (resolve d c).caCrt = none ∧ os.stat w1 (resolve d c).caKey = none) →
      (∀ w1, Inv w1 → ∀ c ∈ cs, ∀ path ∈ [outCrtPath d c, outKeyPath d c],
        os.stat w1 path = none →
        ((os.remove w1 path).1 = none ∨ (os.remove w1 path).1 = some .notExist)
          ∧ Inv (os.remove w1 path).2) →
      (∀ w1, Inv w1 → ∀ c ∈ cs,
        (os.nebulaCert w1 (signArgs d c) (caPass ++ "\n".toList)).1 = true
          ∧ Inv (os.nebulaCert w1 (signArgs d c) (caPass ++ "\n".toList)).2) →
      (∀ w1, Inv w1 → ∀ c ∈ cs, (resolve d c).signCmdPost ≠ [] →
        (os.sh w1 (applyPlaceholders (resolve d c).signCmdPost (clientPlaceholders c))).1
            = true
          ∧ Inv (os.sh w1
              (applyPlaceholders (resolve d c).signCmdPost (clientPlaceholders c))).2) →
      ∃ w2, (clients os caPass d cs w).flow = .next w2 ∧ Inv w2
  | [], w, hw, _, _, _, _, _ => ⟨w, rfl, hw⟩
  | c :: cs, w, hw, hvalid, hca, hrm, hsign, hhook => by
    obtain ⟨w1, hf1, hi1⟩ := client_next os caPass d c w Inv hw
      (hvalid c (List.mem_cons_self _ _))
      (fun w1 h1 => hca w1 h1 c (List.mem_cons_self _ _))
      (fun w1 h1 => hrm w1 h1 c (List.mem_cons_self _ _))
      (fun w1 h1 => hsign w1 h1 c (List.mem_cons_self _ _))
      (fun hset w1 h1 => hhook w1 h1 c (List.mem_cons_self _ _) hset)
    obtain ⟨w2, hf2, hi2⟩ := clients_next os caPass d Inv cs w1 hi1
      (fun c2 h2 => hvalid c2 (List.mem_cons_of_mem _ h2))
      (fun w3 h3 c2 h2 => hca w3 h3 c2 (List.mem_cons_of_mem _ h2))
      (fun w3 h3 c2 h2 => hrm w3 h3 c2 (List.mem_cons_of_mem _ h2))
      (fun w3 h3 c2 h2 => hsign w3 h3 c2 (List.mem_cons_of_mem _ h2))
      (fun w3 h3 c2 h2 => hhook w3 h3 c2 (List.mem_cons_of_mem _ h2))
    refine ⟨w2, ?_, hi2⟩
    unfold clients
    rw [Run.andThen_flow_of_next hf1, hf2]

theorem main_completed_of_flows (os : OS W) (w w1 w2 w3 : W) (caPass : Str) (cfg : Config)
    (swapPre swapPost : Bool) (hne : cfg.Clients ≠ [])
    (hf1 : (cmdPre os swapPre cfg (normalize cfg.Defaults) w).flow = .next w1)
    (hf2 : (clients os caPass (normalize cfg.Defaults) cfg.Clients w1).flow = .next w2)
    (hf3 : (cmdPost os swapPost cfg (normalize cfg.Defaults) w2).flow = .next w3) :
    (main os w caPass (.config cfg) swapPre swapPost).exit = .completed := by
  have hlen : ¬ cfg.Clients.length = 0 := fun h => hne (List.length_eq_zero.mp h)
  have h12 : ((cmdPre os swapPre cfg (normalize cfg.Defaults) w).andThen
      (clients os caPass (normalize cfg.Defaults) cfg.Clients)).flow = .next w2 := by
    rw [Run.andThen_flow_of_next hf1, hf2]
  have h123 : (((cmdPre os swapPre cfg (normalize cfg.Defaults) w).andThen
      (clients os caPass (normalize cfg.Defaults) cfg.Clients)).andThen
      (cmdPost os swapPost cfg (normalize cfg.Defaults))).flow = .next w3 := by
    rw [Run.andThen_flow_of_next h12, hf3]
  have hflow : ((((cmdPre os swapPre cfg (normalize cfg.Defaults) w).andThen
      (clients os caPass (normalize cfg.Defaults) cfg.Clients)).andThen
      (cmdPost os swapPost cfg (normalize cfg.Defaults))).andThen success).flow
      = .next w3 := by
    rw [Run.andThen_flow_of_next h123]
    rfl
  simp only [main, if_neg hlen, Run.finish, hflow]

end Runs

/-! ## Signer arguments and sequencing: claims C5, C10 -/

/-- Claim C5: every invocation of the signer in a run of `main` is the invocation for
a client of the configuration that has a name and at least one network, and its
argument list is `sign -name name -ip ip -duration duration -ca-crt caCrt
-ca-key caKey -out-crt outCrt -out-key outKey -version decimal(version)
-networks nets`, with the networks joined by commas, followed by `-groups groups`
exactly when the groups list is non-empty; the values are the resolved ones and the
output paths are the resolved templates with `{{name}}` replaced by the client's
name. -/
theorem main_nebulaCert_args {W : Type} (os : OS W) (w : W) (caPass : Str) (cfg : Config)
    (swapPre swapPost : Bool) (args : List Str) (stdin : Str)
    (h : Event.nebulaCert args stdin
      ∈ (main os w caPass (.config cfg) swapPre swapPost).trace) :
    ∃ c ∈ cfg.Clients, c.Name ≠ [] ∧ c.Networks ≠ [] ∧
      args = ["sign".toList,
          "-name".toList, c.Name,
          "-ip".toList, c.IP,
          "-duration".toList, (resolve (normalize cfg.Defaults) c).duration,
          "-ca-crt".toList, (resolve (normalize cfg.Defaults) c).caCrt,
          "-ca-key".toList, (resolve (normalize cfg.Defaults) c).caKey,
          "-out-crt".toList,
            applyPlaceholders (resolve (normalize cfg.Defaults) c).outCrt
              [("name".toList, c.Name)],
          "-out-key".toList,
            applyPlaceholders (resolve (normalize cfg.Defaults) c).outKey
              [("name".toList, c.Name)],
          "-version".toList, itoa (resolve (normalize cfg.Defaults) c).version,
          "-networks".toList, join c.Networks ",".toList]
        ++ (if c.Groups ≠ [] then ["-groups".toList, join c.Groups ",".toList] else []) := by
  unfold main at h
  dsimp only at h
  split_ifs at h with h0
  · simp at h
  rw [Run.finish_trace] at h
  rcases Run.mem_trace_andThen h with h | ⟨w3, _, h⟩
  · rcases Run.mem_trace_andThen h with h | ⟨w2, _, h⟩
    · rcases Run.mem_trace_andThen h with h | ⟨w1, _, h⟩
      · rw [cmdPre_trace] at h
        split_ifs at h <;> simp at h
      · obtain ⟨c, hc, hname, hnet, hargs, _⟩ :=
          clients_nebulaCert os caPass (normalize cfg.Defaults) args stdin cfg.Clients w1 h
        exact ⟨c, hc, hname, hnet, hargs.trans (signArgs_of_networks _ c hnet)⟩
    · rw [cmdPost_trace] at h
      split_ifs at h <;> simp at h
  · simp [success] at h

theorem main_nebulaCert_args_witness :
    Event.nebulaCert
        ["sign".toList, "-name".toList, "alice".toList, "-ip".toList, [],
          "-duration".toList, "0".toList, "-ca-crt".toList, "ca.crt".toList,
          "-ca-key".toList, "ca.key".toList, "-out-crt".toList, "hosts/alice.crt".toList,
          "-out-key".toList, "hosts/alice.key".toList, "-version".toList, "0".toList,
          "-networks".toList, "10.0.0.0/24".toList] "\n".toList
      ∈ (main plainOS caFiles [] (.config aliceConfig) false false).trace ∧
    ∃ c ∈ aliceConfig.Clients, c.Name ≠ [] ∧ c.Networks ≠ [] ∧
      ["sign".toList, "-name".toList, "alice".toList, "-ip".toList, [],
          "-duration".toList, "0".toList, "-ca-crt".toList, "ca.crt".toList,
          "-ca-key".toList, "ca.key".toList, "-out-crt".toList, "hosts/alice.crt".toList,
          "-out-key".toList, "hosts/alice.key".toList, "-version".toList, "0".toList,
          "-networks".toList, "10.0.0.0/24".toList]
        = ["sign".toList,
          "-name".toList, c.Name,
          "-ip".toList, c.IP,
          "-duration".toList, (resolve (normalize aliceConfig.Defaults) c).duration,
          "-ca-crt".toList, (resolve (normalize aliceConfig.Defaults) c).caCrt,
          "-ca-key".toList, (resolve (normalize aliceConfig.Defaults) c).caKey,
          "-out-crt".toList,
            applyPlaceholders (resolve (normalize aliceConfig.Defaults) c).outCrt
              [("name".toList, c.Name)],
          "-out-key".toList,
            applyPlaceholders (resolve (normalize aliceConfig.Defaults) c).outKey
              [("name".toList, c.Name)],
          "-version".toList, itoa (resolve (normalize aliceConfig.Defaults) c).version,
          "-networks".toList, join c.Networks ",".toList]
        ++ (if c.Groups ≠ [] then ["-groups".toList, join c.Groups ",".toList] else []) :=
  ⟨by decide,
    main_nebulaCert_args plainOS caFiles [] aliceConfig false false _ "\n".toList
      (by decide)⟩

/-- On a run of `main` that reaches its end, the commands executed are the pre-hook,
the signer and post-sign hook of each client in declared order, and the post-hook. -/
theorem main_commands_of_completed {W : Type} (os : OS W) (w : W) (caPass : Str)
    (cfg : Config) (swapPre swapPost : Bool)
    (h : (main os w caPass (.config cfg) swapPre swapPost).exit = .completed) :
    (main os w caPass (.config cfg) swapPre swapPost).trace.filter Event.isCommand
      = (if cfg.Global.CmdPre ≠ [] then
          [Event.sh (applyPlaceholders cfg.Global.CmdPre
            (visit swapPre [("ca_crt".toList, (normalize cfg.Defaults).CaCrt),
              ("ca_key".toList, (normalize cfg.Defaults).CaKey)]))]
        else [])
      ++ cfg.Clients.flatMap (fun c =>
          Event.nebulaCert (signArgs (normalize cfg.Defaults) c) (caPass ++ "\n".toList)
            :: (if (resolve (normalize cfg.Defaults) c).signCmdPost ≠ [] then
                [Event.sh (applyPlaceholders (resolve (normalize cfg.Defaults) c).signCmdPost
                  [("name".toList, c.Name)])]
              else []))
      ++ (if cfg.Global.CmdPost ≠ [] then
          [Event.sh (applyPlaceholders cfg.Global.CmdPost
            (visit swapPost [("ca_crt".toList, (normalize cfg.Defaults).CaCrt),
              ("ca_key".toList, (normalize cfg.Defaults).CaKey)]))]
        else []) := by
  unfold main at h ⊢
  dsimp only at h ⊢
  by_cases h0 : cfg.Clients.length = 0
  · rw [if_pos h0] at h
    exact Exit.noConfusion h
  rw [if_neg h0] at h ⊢
  obtain ⟨w4, h⟩ := Run.finish_completed h
  rw [Run.finish_trace]
  obtain ⟨w3, h, _, ht3⟩ := Run.andThen_flow_next h
  obtain ⟨w2, h, _, ht2⟩ := Run.andThen_flow_next h
  obtain ⟨w1, _, h, ht1⟩ := Run.andThen_flow_next h
  rw [ht3, ht2, ht1]
  simp only [List.filter_append,
    clients_commands os caPass (normalize cfg.Defaults) cfg.Clients w1 w2 h,
    cmdPre_trace, cmdPost_trace, success, outerPlaceholders, clientPlaceholders]
  have e1 : List.filter Event.isCommand
      [Event.stdout "✔ All certificates generated successfully\n".toList] = [] := rfl
  rw [e1, List.append_nil]
  congr 1
  · congr 1
    split_ifs <;> rfl
  · split_ifs <;> rfl

/-- Claim C10: take a configuration with at least one client, all clients having a
name and a network, run in an environment in which every check and every command of
the run succeeds: in every state the run can be in (a state satisfying the invariant
`Inv`, which holds initially and is kept by the commands and removals of the run) the
resolved CA files of every client exist, removing an existing output file of a client
succeeds, the signer invocation of every client succeeds, and the hooks that are set
succeed.  Then the run reaches the end of `main`, and the external commands it
executes are, in this order: the global pre-hook when `cmd_pre` is non-empty, with the
placeholders of the normalized defaults applied; for each client in declared order the
signer invocation immediately followed by the post-sign hook when the resolved hook is
non-empty, with `{{name}}` replaced by this client's name; the global post-hook when
`cmd_post` is non-empty. -/
theorem main_success_commands {W : Type} (os : OS W) (w : W) (caPass : Str)
    (cfg : Config) (swapPre swapPost : Bool) (Inv : W → Prop)
    (hne : cfg.Clients ≠ []) (hw : Inv w)
    (hvalid : ∀ c ∈ cfg.Clients, c.Name ≠ [] ∧ c.Networks ≠ [])
    (hca : ∀ w1, Inv w1 → ∀ c ∈ cfg.Clients,
      os.stat w1 (resolve (normalize cfg.Defaults) c).caCrt = none
        ∧ os.stat w1 (resolve (normalize cfg.Defaults) c).caKey = none)
    (hrm : ∀ w1, Inv w1 → ∀ c ∈ cfg.Clients,
      ∀ path ∈ [outCrtPath (normalize cfg.Defaults) c, outKeyPath (normalize cfg.Defaults) c],
      os.stat w1 path = none →
      ((os.remove w1 path).1 = none ∨ (os.remove w1 path).1 = some .notExist)
        ∧ Inv (os.remove w1 path).2)
    (hsign : ∀ w1, Inv w1 → ∀ c ∈ cfg.Clients,
      (os.nebulaCert w1 (signArgs (normalize cfg.Defaults) c) (caPass ++ "\n".toList)).1
          = true
        ∧ Inv (os.nebulaCert w1 (signArgs (normalize cfg.Defaults) c)
            (caPass ++ "\n".toList)).2)
    (hhook : ∀ w1, Inv w1 → ∀ c ∈ cfg.Clients,
      (resolve (normalize cfg.Defaults) c).signCmdPost ≠ [] →
      (os.sh w1 (applyPlaceholders (resolve (normalize cfg.Defaults) c).signCmdPost
          [("name".toList, c.Name)])).1 = true
        ∧ Inv (os.sh w1 (applyPlaceholders (resolve (normalize cfg.Defaults) c).signCmdPost
            [("name".toList, c.Name)])).2)
    (hpre : cfg.Global.CmdPre ≠ [] → ∀ w1, Inv w1 →
      (os.sh w1 (applyPlaceholders cfg.Global.CmdPre
          (visit swapPre [("ca_crt".toList, (normalize cfg.Defaults).CaCrt),
            ("ca_key".toList, (normalize cfg.Defaults).CaKey)]))).1 = true
        ∧ Inv (os.sh w1 (applyPlaceholders cfg.Global.CmdPre
            (visit swapPre [("ca_crt".toList, (normalize cfg.Defaults).CaCrt),
              ("ca_key".toList, (normalize cfg.Defaults).CaKey)]))).2)
    (hpost : cfg.Global.CmdPost ≠ [] → ∀ w1, Inv w1 →
      (os.sh w1 (applyPlaceholders cfg.Global.CmdPost
          (visit swapPost [("ca_crt".toList, (normalize cfg.Defaults).CaCrt),
            ("ca_key".toList, (normalize cfg.Defaults).CaKey)]))).1 = true
        ∧ Inv (os.sh w1 (applyPlaceholders cfg.Global.CmdPost
            (visit swapPost [("ca_crt".toList, (normalize cfg.Defaults).CaCrt),
              ("ca_key".toList, (normalize cfg.Defaults).CaKey)]))).2) :
    (main os w caPass (.config cfg) swapPre swapPost).exit = .completed ∧
    (main os w caPass (.config cfg) swapPre swapPost).trace.filter Event.isCommand
      = (if cfg.Global.CmdPre ≠ [] then
          [Event.sh (applyPlaceholders cfg.Global.CmdPre
            (visit swapPre [("ca_crt".toList, (normalize cfg.Defaults).CaCrt),
              ("ca_key".toList, (normalize cfg.Defaults).CaKey)]))]
        else [])
      ++ cfg.Clients.flatMap (fun c =>
          Event.nebulaCert (signArgs (normalize cfg.Defaults) c) (caPass ++ "\n".toList)
            :: (if (resolve (normalize cfg.Defaults) c).signCmdPost ≠ [] then
                [Event.sh (applyPlaceholders (resolve (normalize cfg.Defaults) c).signCmdPost
                  [("name".toList, c.Name)])]
              else []))
      ++ (if cfg.Global.CmdPost ≠ [] then
          [Event.sh (applyPlaceholders cfg.Global.CmdPost
            (visit swapPost [("ca_crt".toList, (normalize cfg.Defaults).CaCrt),
              ("ca_key".toList, (normalize cfg.Defaults).CaKey)]))]
        else []) := by
  obtain ⟨w1, hf1, hi1⟩ := cmdPre_next os swapPre cfg (normalize cfg.Defaults) w Inv hw
    (fun hset => hpre hset w hw)
  obtain ⟨w2, hf2, hi2⟩ := clients_next os caPass (normalize cfg.Defaults) Inv
    cfg.Clients w1 hi1 hvalid hca hrm hsign hhook
  obtain ⟨w3, hf3, _⟩ := cmdPost_next os swapPost cfg (normalize cfg.Defaults) w2 Inv hi2
    (fun hset => hpost hset w2 hi2)
  have hc := main_completed_of_flows os w w1 w2 w3 caPass cfg swapPre swapPost hne
    hf1 hf2 hf3
  exact ⟨hc, main_commands_of_completed os w caPass cfg swapPre swapPost hc⟩

theorem main_success_commands_witness :
    (main plainOS caFiles [] (.config hooksConfig) false true).exit = .completed ∧
    (main plainOS caFiles [] (.config hooksConfig) false true).trace.filter Event.isCommand
      = [.sh "echo ca.crt ca.key".toList,
         .nebulaCert (signArgs (normalize hooksConfig.Defaults) alice) "\n".toList,
         .sh "echo alice signed".toList,
         .nebulaCert (signArgs (normalize hooksConfig.Defaults)
           { bob with Duration := "1h".toList }) "\n".toList,
         .sh "echo bob signed".toList,
         .sh "echo done ca.crt".toList] :=
  have h := main_success_commands plainOS caFiles [] hooksConfig false true
    (fun w => w = caFiles) (by decide) rfl (by decide)
    (fun w1 h => by subst h; decide) (fun w1 h => by subst h; decide)
    (fun _ h _ _ => ⟨rfl, h⟩) (fun _ h _ _ _ => ⟨rfl, h⟩)
    (fun _ _ h => ⟨rfl, h⟩) (fun _ _ h => ⟨rfl, h⟩)
  ⟨h.1, h.2.trans (by decide)⟩

/-! ## Orchestration: claims C6, C7, C8, C9 -/

/-- Claim C6, counterexample: with the valid client `alice` listed before a client
without a name, the signer is invoked for `alice` and only then the run aborts on the
second client. -/
theorem main_validates_inside_loop :
    main plainOS caFiles [] (.config invalidSecondConfig) false false
      = ⟨[.stdout "→ Generating cert for alice\n".toList,
          .nebulaCert (signArgs (normalize noDefaults) alice) "\n".toList],
         .fatal (.clientRequired (bareClient [] ["10.0.2.0/24".toList]))⟩ := by
  decide

/-- Claim C6, amended: when the client list contains a client with an empty name or an
empty networks list, the run never completes, and nothing is done for that client or
for a client after it: the actions of the run are those of the global pre-hook and of
the clients listed before it, which are processed as usual (signer and hooks
included); if they all succeed, the run aborts at the invalid client with the fatal
error of line 149, otherwise it ends where one of them ended it. -/
theorem main_invalid_client {W : Type} (os : OS W) (w : W) (caPass : Str) (cfg : Config)
    (swapPre swapPost : Bool) (done : List Client) (c : Client) (rest : List Client)
    (hcl : cfg.Clients = done ++ c :: rest) (hinv : c.Name = [] ∨ c.Networks = []) :
    (main os w caPass (.config cfg) swapPre swapPost).trace
        = (upTo os caPass swapPre cfg done w).trace ∧
    (main os w caPass (.config cfg) swapPre swapPost).exit
        = (match (upTo os caPass swapPre cfg done w).flow with
          | .stop a => a.exit
          | .next _ => .fatal (.clientRequired c)) ∧
    (main os w caPass (.config cfg) swapPre swapPost).exit ≠ .completed := by
  have hne : cfg.Clients ≠ [] := by
    rw [hcl]
    simp
  cases h : (upTo os caPass swapPre cfg done w).flow with
  | stop a =>
    rw [main_of_upTo_stop os w caPass cfg swapPre swapPost done (c :: rest) hcl hne a h]
    exact ⟨rfl, rfl, a.exit_ne_completed⟩
  | next w1 =>
    rw [main_of_client_stop os w caPass cfg swapPre swapPost done c rest hcl w1 h _
      (client_of_invalid os caPass _ c w1 hinv)]
    exact ⟨rfl, rfl, Abort.exit_ne_completed (.fatal (.clientRequired c))⟩

theorem main_invalid_client_witness :
    (main plainOS caFiles [] (.config invalidSecondConfig) false false).trace
        = (upTo plainOS [] false invalidSecondConfig [alice] caFiles).trace ∧
    (main plainOS caFiles [] (.config invalidSecondConfig) false false).exit
        = (match (upTo plainOS [] false invalidSecondConfig [alice] caFiles).flow with
          | .stop a => a.exit
          | .next _ => .fatal (.clientRequired (bareClient [] ["10.0.2.0/24".toList]))) ∧
    (main plainOS caFiles [] (.config invalidSecondConfig) false false).exit ≠ .completed :=
  main_invalid_client plainOS caFiles [] invalidSecondConfig false false [alice]
    (bareClient [] ["10.0.2.0/24".toList]) [] rfl (Or.inl rfl)

/-- Claim C7, failing input: the configuration with the single client `alice`, the CA
files present, a stale `hosts/alice.crt` and a directory in which `os.Remove` fails
with a permission error.  The removal is attempted, `main` returns at line 190, and
the process ends with exit status 0, without a diagnostic, without having invoked the
signer and without the success line. -/
theorem main_remove_failure_exits_zero :
    main protectedOS ["ca.crt".toList, "ca.key".toList, "hosts/alice.crt".toList] []
        (.config aliceConfig) false false
      = ⟨[.remove "hosts/alice.crt".toList], .returned⟩ ∧
    (main protectedOS ["ca.crt".toList, "ca.key".toList, "hosts/alice.crt".toList] []
        (.config aliceConfig) false false).exit.status = 0 := by
  decide

/-- Claim C8: when the run reaches a client (the global pre-hook and the clients
listed before it have succeeded) and the client's resolved CA certificate path or CA
key path does not exist at that point, the run ends with a fatal error and exit
status 1, and its actions are exactly those performed before the client was reached:
no signer invocation and no removal for this client or a later one.  When the client
is the first one, the only action the run can have performed is the global
pre-hook. -/
theorem main_ca_missing {W : Type} (os : OS W) (w : W) (caPass : Str) (cfg : Config)
    (swapPre swapPost : Bool) (done : List Client) (c : Client) (rest : List Client)
    (w1 : W) (hcl : cfg.Clients = done ++ c :: rest)
    (hreach : (upTo os caPass swapPre cfg done w).flow = .next w1)
    (hmiss : os.stat w1 (resolve (normalize cfg.Defaults) c).caCrt = some .notExist
      ∨ os.stat w1 (resolve (normalize cfg.Defaults) c).caKey = some .notExist) :
    (∃ f, (main os w caPass (.config cfg) swapPre swapPost).exit = .fatal f) ∧
    (main os w caPass (.config cfg) swapPre swapPost).exit.status = 1 ∧
    (main os w caPass (.config cfg) swapPre swapPost).trace
        = (upTo os caPass swapPre cfg done w).trace ∧
    (done = [] → ∀ ev ∈ (main os w caPass (.config cfg) swapPre swapPost).trace,
      ev = Event.sh (applyPlaceholders cfg.Global.CmdPre
        (visit swapPre [("ca_crt".toList, (normalize cfg.Defaults).CaCrt),
          ("ca_key".toList, (normalize cfg.Defaults).CaKey)]))) := by
  obtain ⟨f, hf⟩ := client_of_ca_missing os caPass (normalize cfg.Defaults) c w1 hmiss
  rw [main_of_client_stop os w caPass cfg swapPre swapPost done c rest hcl w1 hreach _ hf]
  refine ⟨⟨f, rfl⟩, rfl, rfl, ?_⟩
  rintro rfl ev hev
  have ht : (upTo os caPass swapPre cfg [] w).trace
      = (cmdPre os swapPre cfg (normalize cfg.Defaults) w).trace := by
    unfold upTo
    cases h : (cmdPre os swapPre cfg (normalize cfg.Defaults) w).flow with
    | stop a => rw [Run.andThen_stop h]
    | next w2 => rw [Run.andThen_next h]; simp [clients]
  simp only [ht, cmdPre_trace] at hev
  split_ifs at hev
  · simpa [outerPlaceholders] using hev
  · simp at hev

theorem main_ca_missing_witness :
    main plainOS ["ca.key".toList] [] (.config aliceConfig) false false
      = ⟨[], .fatal (.caCrtMissing "ca.crt".toList)⟩ ∧
    (main plainOS ["ca.key".toList] [] (.config aliceConfig) false false).trace
      = (upTo plainOS [] false aliceConfig [] ["ca.key".toList]).trace :=
  ⟨by decide,
    (main_ca_missing plainOS ["ca.key".toList] [] aliceConfig false false [] alice []
      ["ca.key".toList] rfl rfl (Or.inl (by decide))).2.2.1⟩

/-- Claim C9, counterexample: with the clients `alice` and `bob` and the global
post-hook `echo {{name}} {{ca_crt}}`, the command run after the loop is
`echo {{name}} ca.crt`, not `echo bob {{ca_crt}}`: the map read at line 252 is the
outer `{ca_crt, ca_key}` map, the per-client map being local to the loop body. -/
theorem main_cmdPost_uses_outer_map :
    (main plainOS caFiles [] (.config cmdPostConfig) false false).trace.filter Event.isCommand
      = [.nebulaCert (signArgs (normalize noDefaults) alice) "\n".toList,
         .nebulaCert (signArgs (normalize noDefaults) bob) "\n".toList,
         .sh "echo {{name}} ca.crt".toList] ∧
    Event.sh "echo bob {{ca_crt}}".toList
      ∉ (main plainOS caFiles [] (.config cmdPostConfig) false false).trace := by
  decide

/-- Claim C9, amended: when the global `cmd_post` is set and the run reaches the global
post-hook (the pre-hook and every client have succeeded), the command executed is
`applyPlaceholders(cmd_post, P)` where `P` is the map `{ca_crt, ca_key}` of the
normalized defaults, the same map as for the global pre-hook; it is the last command
of the run, followed by the success line when it succeeds and by the fatal error of
line 256 when it fails. -/
theorem main_cmdPost_command {W : Type} (os : OS W) (w : W) (caPass : Str) (cfg : Config)
    (swapPre swapPost : Bool) (w1 : W) (cmd : Str)
    (hne : cfg.Clients ≠ []) (hpost : cfg.Global.CmdPost ≠ [])
    (hreach : (upTo os caPass swapPre cfg cfg.Clients w).flow = .next w1)
    (hcmd : cmd = applyPlaceholders cfg.Global.CmdPost
      (visit swapPost [("ca_crt".toList, (normalize cfg.Defaults).CaCrt),
        ("ca_key".toList, (normalize cfg.Defaults).CaKey)])) :
    main os w caPass (.config cfg) swapPre swapPost
      = (if (os.sh w1 cmd).1 then
          ⟨(upTo os caPass swapPre cfg cfg.Clients w).trace
            ++ [.sh cmd, .stdout "✔ All certificates generated successfully\n".toList],
           .completed⟩
        else
          ⟨(upTo os caPass swapPre cfg cfg.Clients w).trace ++ [.sh cmd],
           .fatal .cmdPost⟩) := by
  have hc : cmdPost os swapPost cfg (normalize cfg.Defaults) w1
      = runCommand os cmd .cmdPost w1 := by
    unfold cmdPost
    rw [if_pos hpost, hcmd]
    rfl
  rw [main_eq_upTo os w caPass cfg swapPre swapPost cfg.Clients [] (by simp) hne]
  simp only [Run.andThen, hreach, clients, List.append_nil, hc]
  unfold runCommand
  cases hsh : os.sh w1 cmd with
  | mk ok w2 =>
    cases ok
    · simp only [Run.finish, Abort.exit, Bool.false_eq_true, if_false]
    · simp only [Run.finish, success, if_true, List.append_assoc]
      rfl

theorem main_cmdPost_command_witness :
    main plainOS caFiles [] (.config cmdPostConfig) false false
      = (if (plainOS.sh caFiles "echo {{name}} ca.crt".toList).1 then
          ⟨(upTo plainOS [] false cmdPostConfig cmdPostConfig.Clients caFiles).trace
            ++ [.sh "echo {{name}} ca.crt".toList,
              .stdout "✔ All certificates generated successfully\n".toList],
           .completed⟩
        else
          ⟨(upTo plainOS [] false cmdPostConfig cmdPostConfig.Clients caFiles).trace
            ++ [.sh "echo {{name}} ca.crt".toList],
           .fatal .cmdPost⟩) :=
  main_cmdPost_command plainOS caFiles [] cmdPostConfig false false caFiles
    "echo {{name}} ca.crt".toList (by decide) (by decide) rfl (by decide)

end NebulaCertGenerator
